import Mathlib

/-!
# Verification of the breadth-first zip engine

A shallow embedding of the recursive breadth-first exhaustive `zip`
(`src/lib.rs`, with the alternate cursor strategies of `src/pure.rs` and
`src/impure.rs`), together with proofs of the specification's claims.

Modelling conventions:
* A (finite) input sequence / iterator is a `List α`; cloning an iterator is
  the identity on lists, which trivially preserves the elements yielded.
* The heterogeneous nested tuple `BreadthFirstZipped<A, BreadthFirstZipped<B, ... BaseCase>>`
  is modelled homogeneously: one element type `α` and a depth-indexed chain
  `Node α d` (the algorithm never inspects element values, so this loses no
  generality).  A flattened output tuple is a `List α` of the components in
  original order (the `Flatten` adapter is purely representational).
* `usize` is modelled as `Nat`; the explicit checked operations of the source
  (`checked_sub`, `checked_add`) are modelled faithfully, including the
  `usize::MAX` overflow failure of `checked_add`.
* Fallible code returns `Option`/`Except`; a Rust panic (the `unwrap` in
  `rewind`) is modelled as an outer `Option` layer: `none` = panic.
-/

namespace BFZ

/-- `usize::MAX + 1` (the number of distinct `usize` values). -/
def USIZE : Nat := 2 ^ 64

/-- Rust `usize::checked_sub`: `a.checked_sub b` is `some (a - b)` when `b ≤ a`,
otherwise `none`.  (Faithful: no wraparound is involved.) -/
def checked_sub (a b : Nat) : Option Nat :=
  if b ≤ a then some (a - b) else none

/-- Rust `usize::checked_add(1)`: fails exactly when the result would not fit
in a `usize`. -/
def checked_add1 (a : Nat) : Option Nat :=
  if a + 1 < USIZE then some (a + 1) else none

/-- Model of `core::iter::Enumerate<I>`: the count of elements already
yielded (= index of the next element) plus the remaining elements. -/
structure Enumerate (α : Type) where
  count : Nat
  rest : List α
deriving DecidableEq, Repr

/-- `Enumerate::next`: yields `(index, value)` pairs. -/
def Enumerate.next (e : Enumerate α) : Option ((Nat × α) × Enumerate α) :=
  match e.rest with
  | [] => none
  | v :: rest => some ((e.count, v), ⟨e.count + 1, rest⟩)

/-- `struct Indexed<Type> { index: usize, value: Type }` (src/lib.rs). -/
structure Indexed (α : Type) where
  index : Nat
  value : α
deriving DecidableEq, Repr

/-- The recursive node chain of the replaying (src/lib.rs) implementation,
indexed by its depth (the `DEPTH` associated constant):
`baseCase b` is `BaseCase(b)`, and
`zipped head orig_head tail current` is `BreadthFirstZipped { head, orig_head, tail, current }`. -/
inductive Node (α : Type) : Nat → Type where
  | baseCase (available : Bool) : Node α 0
  | zipped (head : Enumerate α) (orig_head : Enumerate α)
      (tail : Node α d) (current : Indexed α) : Node α (d + 1)
deriving DecidableEq, Repr

/-- `BreadthFirst::rewind` (both `BaseCase` and `BreadthFirstZipped` impls,
src/lib.rs).  The `unwrap` on the first element of the re-cloned original
iterator is modelled by the `Option`: `none` = panic. -/
def rewind : {d : Nat} → Node α d → Option (Node α d)
  | _, .baseCase _ => some (.baseCase true)
  | _, .zipped _ orig tail _ =>
    match rewind tail with
    | none => none
    | some tail₁ =>
      match orig.next with
      | none => none
      | some (iv, head₁) => some (.zipped head₁ orig tail₁ ⟨iv.1, iv.2⟩)

/-- Length of the not-yet-consumed part of a node's own head iterator
(termination measure for `advance`). -/
def restLen : {d : Nat} → Node α d → Nat
  | _, .baseCase _ => 0
  | _, .zipped head _ _ _ => head.rest.length

theorem Enumerate.next_some_length {e e' : Enumerate α} {iv : Nat × α}
    (h : e.next = some (iv, e')) : e'.rest.length < e.rest.length := by
  unfold Enumerate.next at h
  match he : e.rest with
  | [] => rw [he] at h; exact absurd h (by simp)
  | v :: rest => rw [he] at h; simp at h; simp [he, ← h.2]

/-- `BreadthFirst::advance` (src/lib.rs): the `BaseCase` impl and the
`BreadthFirstZipped` impl's `loop`, as a single recursive function.  The
result is `some (yielded?, new_state)`; the outer `none` is a panic
(propagated from `rewind`'s `unwrap`).  Each `loop` iteration is one
recursive call on the node with the head iterator advanced and the tail
rewound. -/
def advance : {d : Nat} → Node α d → Nat → Option (Option (List α) × Node α d)
  | _, .baseCase b, index_sum =>
    if index_sum = 0 ∧ b then some (some [], .baseCase false)
    else some (none, .baseCase b)
  | _, .zipped head orig tail cur, index_sum =>
    match checked_sub index_sum cur.index with
    | none => some (none, .zipped head orig tail cur)
    | some rem =>
      match advance tail rem with
      | none => none
      | some (some tv, tail₁) =>
        some (some (cur.value :: tv), .zipped head orig tail₁ cur)
      | some (none, tail₁) =>
        if cur.index < index_sum then
          match h : head.next with
          | none => some (none, .zipped head orig tail₁ cur)
          | some (iv, head₁) =>
            match rewind tail₁ with
            | none => none
            | some tail₂ =>
              advance (.zipped head₁ orig tail₂ ⟨iv.1, iv.2⟩) index_sum
        else some (none, .zipped head orig tail₁ cur)
termination_by d n _ => (d, restLen n)
decreasing_by
  · exact Prod.Lex.left _ _ (Nat.lt_succ_self _)
  · exact Prod.Lex.right _ (by simpa [restLen] using Enumerate.next_some_length h)

/-- `BreadthFirstZipped::new` (src/lib.rs): requires a non-empty head
iterator, producing the node with `current` holding element #0. -/
def BreadthFirstZipped.new (head : List α) (tail : Node α d) :
    Except String (Node α (d + 1)) :=
  let orig : Enumerate α := ⟨0, head⟩
  match orig.next with
  | none => .error "Tried to breadth-first zip an empty iterator"
  | some (iv, head₁) => .ok (.zipped head₁ orig tail ⟨iv.1, iv.2⟩)

/-- `Unflatten::unflatten` for an N-tuple of sequences (the macro-generated
impls fold `BreadthFirstZipped::new` over the tuple, ending in `BaseCase(true)`;
the tail is unflattened first, as in the generated `(tail…).unflatten()?`). -/
def unflatten : (ls : List (List α)) → Except String (Node α ls.length)
  | [] => .ok (.baseCase true)
  | l :: ls =>
    match unflatten ls with
    | .error e => .error e
    | .ok tail => BreadthFirstZipped.new l tail

/-- `BreadthFirstManager` (src/lib.rs): the driver;
root node plus the monotonically increasing `index_sum` threshold. -/
structure BreadthFirstManager (α : Type) (d : Nat) where
  tail : Node α d
  index_sum : Nat
deriving DecidableEq, Repr

/-- `BreadthFirstManager::new`. -/
def BreadthFirstManager.new (t : Node α d) : BreadthFirstManager α d := ⟨t, 0⟩

/-- `BreadthFirstZip::breadth_first_zip` for a tuple of sequences. -/
def breadth_first_zip (ls : List (List α)) :
    Except String (BreadthFirstManager α ls.length) :=
  match unflatten ls with
  | .error e => .error e
  | .ok n => .ok (BreadthFirstManager.new n)

/-- `<BreadthFirstManager as Iterator>::next` (src/lib.rs): query the node
tree at the current threshold; on failure increment the threshold
(`checked_add`, `?` on overflow), rewind the whole tree, retry exactly once.
Outer `none` = panic. -/
def BreadthFirstManager.next (m : BreadthFirstManager α d) :
    Option (Option (List α) × BreadthFirstManager α d) :=
  match advance m.tail m.index_sum with
  | none => none
  | some (some v, t₁) => some (some v, ⟨t₁, m.index_sum⟩)
  | some (none, t₁) =>
    match checked_add1 m.index_sum with
    | none => some (none, ⟨t₁, m.index_sum⟩)
    | some s₁ =>
      match rewind t₁ with
      | none => none
      | some t₂ =>
        match advance t₂ s₁ with
        | none => none
        | some (r, t₃) => some (r, ⟨t₃, s₁⟩)

/-- Iterate `next` `k` times, collecting the `k` results in order
(outer `none` = some call panicked). -/
def nextOuts (m : BreadthFirstManager α d) :
    Nat → Option (List (Option (List α)) × BreadthFirstManager α d)
  | 0 => some ([], m)
  | k + 1 =>
    match m.next with
    | none => none
    | some (r, m₁) =>
      match nextOuts m₁ k with
      | none => none
      | some (rs, m₂) => some (r :: rs, m₂)

/-- The first `k` results of driving `breadth_first_zip ls` (`none` if
construction failed or a call panicked). -/
def driverOuts (ls : List (List α)) (k : Nat) : Option (List (Option (List α))) :=
  match breadth_first_zip ls with
  | .error _ => none
  | .ok m => (nextOuts m k).map Prod.fst

/-! ## The caching cursor strategy (src/pure.rs) -/

/-- `Reiterator` (src/pure.rs): the caching cursor.  `iter` is the
not-yet-consumed part of the underlying source, `cache` the elements
produced so far, `index` the position `current` will read. -/
structure Reiterator (α : Type) where
  iter : List α
  cache : List α
  index : Nat
deriving DecidableEq, Repr

/-- `Reiterator::new` (src/pure.rs): unconditionally `Ok` (the `Result` is
kept only for macro compatibility — see the `clippy::unnecessary_wraps`
allowance in the source). -/
def Reiterator.new (iter : List α) : Except String (Reiterator α) :=
  .ok ⟨iter, [], 0⟩

/-- `Reiterator::current` (src/pure.rs): read the cache at `index`, else pull
one element from the underlying source and append it to the cache.  Returns
the value together with the mutated cursor. -/
def Reiterator.current (r : Reiterator α) : Option (α × Reiterator α) :=
  match r.cache.get? r.index with
  | some v => some (v, r)
  | none =>
    match r.iter with
    | [] => none
    | v :: rest => some (v, ⟨rest, r.cache ++ [v], r.index⟩)

/-- `Reiterator::next` (src/pure.rs): advance the position only
(`index.checked_add(1)`), without touching the underlying source. -/
def Reiterator.next (r : Reiterator α) : Option (Unit × Reiterator α) :=
  match checked_add1 r.index with
  | none => none
  | some i => some ((), ⟨r.iter, r.cache, i⟩)

/-- `Reiterator::rewind` (src/pure.rs): reset the read position to 0. -/
def Reiterator.rewind (r : Reiterator α) : Reiterator α :=
  ⟨r.iter, r.cache, 0⟩

/-- The node chain of the caching (src/pure.rs) implementation. -/
inductive PNode (α : Type) : Nat → Type where
  | baseCase (available : Bool) : PNode α 0
  | zipped (iter : Reiterator α) (tail : PNode α d) : PNode α (d + 1)
deriving DecidableEq, Repr

/-- `BreadthFirstZipped::new` (src/pure.rs): `Reiterator::new(head).map(...)`,
which never fails. -/
def PNode.new (head : List α) (tail : PNode α d) : Except String (PNode α (d + 1)) :=
  match Reiterator.new head with
  | .error e => .error e
  | .ok it => .ok (.zipped it tail)

/-- `unflatten` for the caching implementation (macro-generated, src/pure.rs). -/
def punflatten : (ls : List (List α)) → Except String (PNode α ls.length)
  | [] => .ok (.baseCase true)
  | l :: ls =>
    match punflatten ls with
    | .error e => .error e
    | .ok tail => PNode.new l tail

/-- `breadth_first_zip` for the caching implementation (src/pure.rs): the
manager is structurally identical, so only construction is modelled (it is
what claim C3 concerns). -/
def pure_breadth_first_zip (ls : List (List α)) : Except String (PNode α ls.length × Nat) :=
  match punflatten ls with
  | .error e => .error e
  | .ok n => .ok (n, 0)

/-- `Except.isOk`. -/
def exceptOk : Except ε β → Bool
  | .ok _ => true
  | .error _ => false

/-! ## The unguarded variant of `advance` (claim C8)

Identical to `advance` except that the `self.current.index < index_sum`
guard — the comparison the source comments call "just an optimization, not
logically necessary" — is removed: after a tail failure the head iterator is
always advanced, so the loop stops only via head-iterator exhaustion or via
the `checked_sub` failure on the next iteration. -/

def advanceU : {d : Nat} → Node α d → Nat → Option (Option (List α) × Node α d)
  | _, .baseCase b, index_sum =>
    if index_sum = 0 ∧ b then some (some [], .baseCase false)
    else some (none, .baseCase b)
  | _, .zipped head orig tail cur, index_sum =>
    match checked_sub index_sum cur.index with
    | none => some (none, .zipped head orig tail cur)
    | some rem =>
      match advanceU tail rem with
      | none => none
      | some (some tv, tail₁) =>
        some (some (cur.value :: tv), .zipped head orig tail₁ cur)
      | some (none, tail₁) =>
        match h : head.next with
        | none => some (none, .zipped head orig tail₁ cur)
        | some (iv, head₁) =>
          match rewind tail₁ with
          | none => none
          | some tail₂ =>
            advanceU (.zipped head₁ orig tail₂ ⟨iv.1, iv.2⟩) index_sum
termination_by d n _ => (d, restLen n)
decreasing_by
  · exact Prod.Lex.left _ _ (Nat.lt_succ_self _)
  · exact Prod.Lex.right _ (by simpa [restLen] using Enumerate.next_some_length h)

/-- `next` of a driver whose node tree uses the unguarded `advanceU`. -/
def nextU (m : BreadthFirstManager α d) :
    Option (Option (List α) × BreadthFirstManager α d) :=
  match advanceU m.tail m.index_sum with
  | none => none
  | some (some v, t₁) => some (some v, ⟨t₁, m.index_sum⟩)
  | some (none, t₁) =>
    match checked_add1 m.index_sum with
    | none => some (none, ⟨t₁, m.index_sum⟩)
    | some s₁ =>
      match rewind t₁ with
      | none => none
      | some t₂ =>
        match advanceU t₂ s₁ with
        | none => none
        | some (r, t₃) => some (r, ⟨t₃, s₁⟩)

/-- Iterate `nextU` `k` times. -/
def nextOutsU (m : BreadthFirstManager α d) :
    Nat → Option (List (Option (List α)) × BreadthFirstManager α d)
  | 0 => some ([], m)
  | k + 1 =>
    match nextU m with
    | none => none
    | some (r, m₁) =>
      match nextOutsU m₁ k with
      | none => none
      | some (rs, m₂) => some (r :: rs, m₂)

/-! ## Specification-side enumeration

`sumCombos s ls` is the list of all combinations (one `(index, value)` entry
per sequence of `ls`) whose indices sum to exactly `s`, in ascending
lexicographic order of the index tuple.  These are pure mathematical
descriptions used to state what the driver produces. -/

mutual

/-- All combinations over `ls` with index sum exactly `s`, lexicographically
ascending. -/
def sumCombos : Nat → List (List α) → List (List (Nat × α))
  | s, [] => if s = 0 then [[]] else []
  | s, L :: ls => sumCombosFrom s L 0 ls
termination_by s ls => (2 * ls.length, 0)
decreasing_by
  exact Prod.Lex.left _ _ (by simp [List.length_cons]; omega)

/-- The combinations of `sumCombos s (L :: ls)` whose head index is `≥ i`. -/
def sumCombosFrom (s : Nat) (L : List α) (i : Nat) (ls : List (List α)) :
    List (List (Nat × α)) :=
  match h : L.get? i with
  | none => []
  | some v =>
    if i ≤ s then
      (sumCombos (s - i) ls).map ((i, v) :: ·) ++ sumCombosFrom s L (i + 1) ls
    else []
termination_by (2 * ls.length + 1, L.length - i)
decreasing_by
  · exact Prod.Lex.left _ _ (by omega)
  · exact Prod.Lex.right _ (by
      have hi : i < L.length := (List.get?_eq_some.mp h).choose
      omega)

end

/-- The maximum achievable index sum over `ls` (each sequence contributes its
last index). -/
def maxSum (ls : List (List α)) : Nat :=
  (ls.map (fun L => L.length - 1)).sum

/-- The number of combinations: the product of the lengths. -/
def totalProd (ls : List (List α)) : Nat :=
  (ls.map List.length).prod

/-- All combinations the driver can ever emit, in emission order: index sums
`0, 1, …` up to the maximum achievable sum, truncated at the last
representable threshold `usize::MAX` (the `checked_add` overflow; irrelevant
whenever `maxSum ls < USIZE`). -/
def emitted (ls : List (List α)) : List (List (Nat × α)) :=
  (List.range (min (maxSum ls) (USIZE - 1) + 1)).flatMap (fun s => sumCombos s ls)

/-! ## State abstraction: well-formedness and the pending-output list -/

/-- The original sequences stored (via `orig_head`) along a node chain. -/
def origItems : {d : Nat} → Node α d → List (List α)
  | _, .baseCase _ => []
  | _, .zipped _ orig tail _ => orig.rest :: origItems tail

/-- Structural well-formedness of a node state: the `orig_head` clone is
untouched, `current` holds the element of the original sequence at its own
index, and `head` is the original iterator advanced just past `current`.
All states produced by `new` satisfy this, and `advance`/`rewind` preserve
it. -/
def WF : {d : Nat} → Node α d → Prop
  | _, .baseCase _ => True
  | _, .zipped head orig tail cur =>
    orig.count = 0 ∧ orig.rest.get? cur.index = some cur.value ∧
      head.count = cur.index + 1 ∧ head.rest = orig.rest.drop (cur.index + 1) ∧
      WF tail

/-- A freshly constructed / freshly rewound node chain: every cursor at
position 0, the base-case flag available. -/
def Fresh : {d : Nat} → Node α d → Prop
  | _, .baseCase b => b = true
  | _, .zipped _ _ tail cur => cur.index = 0 ∧ Fresh tail

/-- The outputs a node chain will still produce, in order, if `advance` is
called repeatedly at threshold `s` from the given state. -/
def pending : {d : Nat} → Node α d → Nat → List (List (Nat × α))
  | _, .baseCase b, s => if s = 0 ∧ b then [[]] else []
  | _, .zipped _ orig tail cur, s =>
    if cur.index ≤ s then
      (pending tail (s - cur.index)).map ((cur.index, cur.value) :: ·) ++
        sumCombosFrom s orig.rest (cur.index + 1) (origItems tail)
    else []

/-! ## Basic lemmas about the spec-side enumeration -/

theorem sumCombos_nil (s : Nat) :
    sumCombos (α := α) s [] = if s = 0 then [[]] else [] := by
  rw [sumCombos]

theorem sumCombos_cons (s : Nat) (L : List α) (ls : List (List α)) :
    sumCombos s (L :: ls) = sumCombosFrom s L 0 ls := by
  rw [sumCombos]

theorem sumCombosFrom_of_get_none {L : List α} (h : L.get? i = none)
    (s : Nat) (ls : List (List α)) : sumCombosFrom s L i ls = [] := by
  rw [sumCombosFrom.eq_def]
  split
  · rfl
  · rename_i v hv; rw [h] at hv; exact absurd hv (by simp)

theorem sumCombosFrom_of_gt {s i : Nat} (h : s < i) (L : List α)
    (ls : List (List α)) : sumCombosFrom s L i ls = [] := by
  rw [sumCombosFrom.eq_def]
  split
  · rfl
  · rw [if_neg (by omega)]

theorem sumCombosFrom_of_get_some {L : List α} {v : α} (h : L.get? i = some v)
    (hle : i ≤ s) (ls : List (List α)) :
    sumCombosFrom s L i ls =
      (sumCombos (s - i) ls).map ((i, v) :: ·) ++ sumCombosFrom s L (i + 1) ls := by
  rw [sumCombosFrom.eq_def]
  split
  · rename_i hv; rw [h] at hv; exact absurd hv (by simp)
  · rename_i v' hv; rw [h] at hv
    rw [if_pos hle, Option.some_inj.mp hv]

/-! ## Construction and rewinding -/

theorem unflatten_ok {ls : List (List α)} :
    ∀ {n : Node α ls.length}, unflatten ls = .ok n →
      WF n ∧ Fresh n ∧ origItems n = ls ∧ ∀ L ∈ ls, L ≠ [] := by
  induction ls with
  | nil =>
    intro n h
    rw [unflatten] at h
    cases h
    exact ⟨trivial, rfl, rfl, by simp⟩
  | cons L ls ih =>
    intro n h
    rw [unflatten] at h
    cases hu : unflatten ls with
    | error e => rw [hu] at h; exact absurd h (by simp)
    | ok tail =>
      rw [hu] at h
      obtain ⟨hwf, hfresh, horig, hne⟩ := ih hu
      unfold BreadthFirstZipped.new at h
      cases hL : L with
      | nil => simp [Enumerate.next, hL] at h
      | cons a as =>
        simp only [Enumerate.next, hL] at h
        cases h
        refine ⟨⟨rfl, by simp, rfl, by simp, hwf⟩, ⟨rfl, hfresh⟩,
          by simp [origItems, horig], ?_⟩
        intro L' hL'
        rcases List.mem_cons.mp hL' with h' | h'
        · simp [h']
        · exact hne L' h'

theorem unflatten_error_eq {ls : List (List α)} :
    ∀ {e}, unflatten ls = .error e →
      e = "Tried to breadth-first zip an empty iterator" := by
  induction ls with
  | nil => intro e h; rw [unflatten] at h; exact absurd h (by simp)
  | cons L ls ih =>
    intro e h
    rw [unflatten] at h
    cases hu : unflatten ls with
    | error e' =>
      rw [hu] at h
      simp only [Except.error.injEq] at h
      exact h ▸ ih hu
    | ok t =>
      rw [hu] at h
      unfold BreadthFirstZipped.new at h
      cases hL : L with
      | nil =>
        simp only [Enumerate.next, hL, Except.error.injEq] at h
        exact h.symm
      | cons a as => simp [Enumerate.next, hL] at h

theorem unflatten_error_of_mem {ls : List (List α)} (h : [] ∈ ls) :
    unflatten ls = .error "Tried to breadth-first zip an empty iterator" := by
  induction ls with
  | nil => exact absurd h (by simp)
  | cons L ls ih =>
    rw [unflatten]
    cases hu : unflatten ls with
    | error e => rw [unflatten_error_eq hu]
    | ok t =>
      rcases List.mem_cons.mp h with h' | h'
      · unfold BreadthFirstZipped.new
        rw [← h']
        rfl
      · rw [ih h'] at hu; exact absurd hu (by simp)

theorem rewind_ok {n : Node α d} :
    WF n → (∀ L ∈ origItems n, L ≠ []) →
      ∃ n', rewind n = some n' ∧ WF n' ∧ Fresh n' ∧ origItems n' = origItems n := by
  induction n with
  | baseCase b => exact fun _ _ => ⟨.baseCase true, rfl, trivial, rfl, rfl⟩
  | zipped head orig tail cur ih =>
    intro hwf hne
    obtain ⟨hcount, hget, hhc, hhr, hwft⟩ := hwf
    obtain ⟨t', ht', hwt', hft', hot'⟩ :=
      ih hwft (fun L hL => hne L (by simp [origItems, hL]))
    have hrne : orig.rest ≠ [] := hne orig.rest (by simp [origItems])
    cases hrest : orig.rest with
    | nil => exact absurd hrest hrne
    | cons a as =>
      refine ⟨.zipped ⟨orig.count + 1, as⟩ orig t' ⟨orig.count, a⟩, ?_, ?_, ?_, ?_⟩
      · rw [rewind, ht', Enumerate.next, hrest]
      · exact ⟨hcount, by simp [hcount, hrest], by simp [hcount],
          by simp [hrest, hcount], hwt'⟩
      · exact ⟨hcount, hft'⟩
      · simp [origItems, hot']

/-- A fresh well-formed chain's pending outputs at any threshold are exactly
the spec-side enumeration at that threshold. -/
theorem pending_fresh {n : Node α d} :
    WF n → Fresh n → ∀ s, pending n s = sumCombos s (origItems n) := by
  induction n with
  | baseCase b =>
    intro _ hf s
    have hb : b = true := hf
    simp [pending, origItems, sumCombos_nil, hb]
  | zipped head orig tail cur ih =>
    intro hwf hf s
    obtain ⟨hcount, hget, hhc, hhr, hwft⟩ := hwf
    obtain ⟨hidx, hft⟩ := hf
    have hrec := ih hwft hft
    have hget0 : orig.rest.get? 0 = some cur.value := hidx ▸ hget
    simp only [pending, origItems, sumCombos_cons, hidx]
    rw [sumCombosFrom_of_get_some hget0 (Nat.zero_le s), if_pos (Nat.zero_le s)]
    simp [hrec]

/-! ## The advance simulation -/

theorem WF.origItems_ne {n : Node α d} : WF n → ∀ L ∈ origItems n, L ≠ [] := by
  induction n with
  | baseCase b => intro _ L hL; exact absurd hL (by simp [origItems])
  | zipped head orig tail cur ih =>
    intro hwf L hL
    obtain ⟨_, hget, _, _, hwft⟩ := hwf
    rcases List.mem_cons.mp hL with h' | h'
    · subst h'
      intro hnil
      rw [hnil] at hget
      simp at hget
    · exact ih hwft L h'

theorem Enumerate.next_eq_none {e : Enumerate α} : e.next = none ↔ e.rest = [] := by
  unfold Enumerate.next
  cases e.rest <;> simp

theorem drop_cons_get {L : List α} {x : α} {r' : List α}
    (h : L.drop i = x :: r') : L.get? i = some x ∧ L.drop (i + 1) = r' := by
  constructor
  · have := List.get?_drop L i 0
    rw [h] at this
    simpa using this.symm
  · rw [← List.tail_drop, h, List.tail_cons]

theorem drop_nil_get {L : List α} (h : L.drop i = []) : L.get? i = none := by
  have := congrArg List.length h
  rw [List.length_drop] at this
  exact List.get?_eq_none.mpr (by simp at this; omega)

/-- What one `advance` call does from a well-formed state: it never panics,
it preserves well-formedness and the stored original sequences, it yields the
values of the first pending combination (or yields nothing when nothing is
pending), and it leaves exactly the remaining combinations pending. -/
def AdvanceSpec (n : Node α d) (s : Nat)
    (out : Option (Option (List α) × Node α d)) : Prop :=
  ∃ r n', out = some (r, n') ∧ WF n' ∧ origItems n' = origItems n ∧
    r = (pending n s).head?.map (List.map Prod.snd) ∧
    pending n' s = (pending n s).tail

theorem advance_ok : ∀ (d : Nat) (n : Node α d) (s : Nat),
    WF n → AdvanceSpec n s (advance n s) := by
  intro d
  induction d with
  | zero =>
    intro n s _
    cases n with
    | baseCase b =>
      by_cases hb : s = 0 ∧ b = true
      · refine ⟨some [], .baseCase false, ?_, trivial, rfl, ?_, ?_⟩
        · rw [advance.eq_def]; simp [hb.1, hb.2]
        · simp [pending, hb.1, hb.2]
        · simp [pending, hb.1, hb.2]
      · refine ⟨none, .baseCase b, ?_, trivial, rfl, ?_, ?_⟩
        · rw [advance.eq_def]
          simp [hb]
        · simp only [pending, if_neg hb]; rfl
        · simp only [pending, if_neg hb]; rfl
  | succ d ih =>
    intro n s hwf
    cases n with
    | zipped head orig tail cur =>
      have inner : ∀ (k : Nat) (head orig : Enumerate α) (tail : Node α d)
          (cur : Indexed α), head.rest.length ≤ k →
          WF (Node.zipped head orig tail cur) →
          AdvanceSpec (Node.zipped head orig tail cur) s
            (advance (Node.zipped head orig tail cur) s) := by
        intro k
        induction k using Nat.strong_induction_on with
        | _ k ihk =>
          intro head orig tail cur hk hwf
          have hwf' := hwf
          obtain ⟨hcount, hget, hhc, hhr, hwft⟩ := hwf'
          by_cases hcs : cur.index ≤ s
          case neg =>
            -- checked_sub fails: nothing pending, state untouched
            have hsub : checked_sub s cur.index = none := by
              simp [checked_sub, hcs]
            have hpn : pending (Node.zipped head orig tail cur) s = [] := by
              simp only [pending, if_neg hcs]
            refine ⟨none, .zipped head orig tail cur, ?_, hwf, rfl, ?_, ?_⟩
            · rw [advance.eq_def]; simp only [hsub]
            · simp [hpn]
            · simp [hpn]
          case pos =>
            have hsub : checked_sub s cur.index = some (s - cur.index) := by
              simp [checked_sub, hcs]
            obtain ⟨rt, tail₁, hadv_t, hwt₁, hot₁, hrt, hpt₁⟩ :=
              ih tail (s - cur.index) hwft
            cases hpt : pending tail (s - cur.index) with
            | cons c' cs' =>
              -- the tail yields: so does this node, with its current value
              have hrt' : rt = some (List.map Prod.snd c') := by
                rw [hrt, hpt]; rfl
              subst hrt'
              have hpn : pending (Node.zipped head orig tail cur) s =
                  ((cur.index, cur.value) :: c') ::
                    (cs'.map ((cur.index, cur.value) :: ·) ++
                      sumCombosFrom s orig.rest (cur.index + 1) (origItems tail)) := by
                simp only [pending, if_pos hcs, hpt, List.map_cons, List.cons_append]
              refine ⟨some (cur.value :: List.map Prod.snd c'),
                .zipped head orig tail₁ cur, ?_, ⟨hcount, hget, hhc, hhr, hwt₁⟩,
                by simp [origItems, hot₁], ?_, ?_⟩
              · rw [advance.eq_def]; simp only [hsub, hadv_t]
              · rw [hpn]; rfl
              · rw [hpn]
                simp only [pending, if_pos hcs, List.tail_cons]
                rw [hpt₁, hpt, List.tail_cons, hot₁]
            | nil =>
              have hrt' : rt = none := by rw [hrt, hpt]; rfl
              subst hrt'
              have hpt₁' : pending tail₁ (s - cur.index) = [] := by
                rw [hpt₁, hpt]; rfl
              by_cases hlt : cur.index < s
              case neg =>
                -- cur.index = s: the guard stops the loop; nothing pending
                have hcseq : cur.index = s := by omega
                have hfrom : sumCombosFrom s orig.rest (cur.index + 1)
                    (origItems tail) = [] :=
                  sumCombosFrom_of_gt (by omega) _ _
                have hpn : pending (Node.zipped head orig tail cur) s = [] := by
                  simp only [pending, if_pos hcs, hpt, hfrom, List.map_nil,
                    List.nil_append]
                refine ⟨none, .zipped head orig tail₁ cur, ?_,
                  ⟨hcount, hget, hhc, hhr, hwt₁⟩, by simp [origItems, hot₁],
                  by simp [hpn], ?_⟩
                · rw [advance.eq_def]
                  simp only [hsub, hadv_t, if_neg hlt]
                · simp only [pending, if_pos hcs, hpt₁', hpt, hfrom, hot₁,
                    List.map_nil, List.nil_append, hpn, List.tail_nil]
              case pos =>
                rw [advance.eq_def]
                simp only [hsub, hadv_t, if_pos hlt]
                split
                case _ hnext =>
                  -- head exhausted: nothing pending
                  have hrest : head.rest = [] := Enumerate.next_eq_none.mp hnext
                  have hgetn : orig.rest.get? (cur.index + 1) = none :=
                    drop_nil_get (by rw [← hhr, hrest])
                  have hfrom : sumCombosFrom s orig.rest (cur.index + 1)
                      (origItems tail) = [] :=
                    sumCombosFrom_of_get_none hgetn _ _
                  have hpn : pending (Node.zipped head orig tail cur) s = [] := by
                    simp only [pending, if_pos hcs, hpt, hfrom, List.map_nil,
                      List.nil_append]
                  refine ⟨none, .zipped head orig tail₁ cur, rfl,
                    ⟨hcount, hget, hhc, hhr, hwt₁⟩, by simp [origItems, hot₁],
                    by simp [hpn], ?_⟩
                  simp only [pending, if_pos hcs, hpt₁', hpt, hfrom, hot₁,
                    List.map_nil, List.nil_append, hpn, List.tail_nil]
                case _ iv head₁ hnext =>
                  -- the loop: advance the head cursor, rewind the tail
                  cases hrest : head.rest with
                  | nil =>
                    rw [Enumerate.next_eq_none.mpr hrest] at hnext
                    exact absurd hnext (by simp)
                  | cons x r' =>
                    have hnx : head.next =
                        some ((head.count, x), ⟨head.count + 1, r'⟩) := by
                      unfold Enumerate.next
                      rw [hrest]
                    rw [hnx] at hnext
                    simp only [Option.some.injEq, Prod.mk.injEq] at hnext
                    obtain ⟨hiv, hhd⟩ := hnext
                    subst hiv
                    subst hhd
                    obtain ⟨tail₂, hrew, hwt₂, hft₂, hot₂⟩ :=
                      rewind_ok hwt₁ (WF.origItems_ne hwt₁)
                    rw [hrew]
                    have hdrop := drop_cons_get (hhr.symm.trans hrest)
                    have hwfN : WF (Node.zipped (⟨head.count + 1, r'⟩ : Enumerate α)
                        orig tail₂ ⟨(head.count, x).1, (head.count, x).2⟩) := by
                      refine ⟨hcount, ?_, ?_, ?_, hwt₂⟩
                      · show orig.rest.get? head.count = some x
                        rw [hhc]; exact hdrop.1
                      · rfl
                      · show r' = orig.rest.drop (head.count + 1)
                        rw [hhc]; exact hdrop.2.symm
                    have hfreshp : ∀ σ, pending tail₂ σ =
                        sumCombos σ (origItems tail) := by
                      intro σ
                      rw [pending_fresh hwt₂ hft₂, hot₂, hot₁]
                    have hpe : pending (Node.zipped (⟨head.count + 1, r'⟩ : Enumerate α)
                        orig tail₂ ⟨(head.count, x).1, (head.count, x).2⟩) s
                        = pending (Node.zipped head orig tail cur) s := by
                      show (if head.count ≤ s then _ else []) = _
                      rw [if_pos (show head.count ≤ s by omega)]
                      simp only [pending, if_pos hcs, hpt, List.map_nil,
                        List.nil_append, hfreshp]
                      rw [sumCombosFrom_of_get_some hdrop.1
                        (show cur.index + 1 ≤ s by omega)]
                      rw [hhc, hot₂, hot₁]
                    have hlen : r'.length < k := by
                      have : head.rest.length ≤ k := hk
                      rw [hrest] at this
                      simp at this
                      omega
                    obtain ⟨r, n'', hout, hwf'', horig'', hr, hp⟩ :=
                      ihk r'.length hlen ⟨head.count + 1, r'⟩ orig tail₂
                        ⟨(head.count, x).1, (head.count, x).2⟩ (le_refl _) hwfN
                    refine ⟨r, n'', hout, hwf'', ?_, ?_, ?_⟩
                    · rw [horig'']
                      show orig.rest :: origItems tail₂ = orig.rest :: origItems tail
                      rw [hot₂, hot₁]
                    · rw [hr, hpe]
                    · rw [hp, hpe]
      exact inner head.rest.length head orig tail cur (le_refl _) hwf

/-- The unguarded `advanceU` satisfies exactly the same one-call contract as
the guarded `advance`: the `cursor.position < threshold` comparison never
changes a call's result, only how fast the loop stops. -/
theorem advanceU_ok : ∀ (d : Nat) (n : Node α d) (s : Nat),
    WF n → AdvanceSpec n s (advanceU n s) := by
  intro d
  induction d with
  | zero =>
    intro n s _
    cases n with
    | baseCase b =>
      by_cases hb : s = 0 ∧ b = true
      · refine ⟨some [], .baseCase false, ?_, trivial, rfl, ?_, ?_⟩
        · rw [advanceU.eq_def]; simp [hb.1, hb.2]
        · simp [pending, hb.1, hb.2]
        · simp [pending, hb.1, hb.2]
      · refine ⟨none, .baseCase b, ?_, trivial, rfl, ?_, ?_⟩
        · rw [advanceU.eq_def]
          simp [hb]
        · simp only [pending, if_neg hb]; rfl
        · simp only [pending, if_neg hb]; rfl
  | succ d ih =>
    intro n s hwf
    cases n with
    | zipped head orig tail cur =>
      have inner : ∀ (k : Nat) (head orig : Enumerate α) (tail : Node α d)
          (cur : Indexed α), head.rest.length ≤ k →
          WF (Node.zipped head orig tail cur) →
          AdvanceSpec (Node.zipped head orig tail cur) s
            (advanceU (Node.zipped head orig tail cur) s) := by
        intro k
        induction k using Nat.strong_induction_on with
        | _ k ihk =>
          intro head orig tail cur hk hwf
          have hwf' := hwf
          obtain ⟨hcount, hget, hhc, hhr, hwft⟩ := hwf'
          by_cases hcs : cur.index ≤ s
          case neg =>
            have hsub : checked_sub s cur.index = none := by
              simp [checked_sub, hcs]
            have hpn : pending (Node.zipped head orig tail cur) s = [] := by
              simp only [pending, if_neg hcs]
            refine ⟨none, .zipped head orig tail cur, ?_, hwf, rfl, ?_, ?_⟩
            · rw [advanceU.eq_def]; simp only [hsub]
            · simp [hpn]
            · simp [hpn]
          case pos =>
            have hsub : checked_sub s cur.index = some (s - cur.index) := by
              simp [checked_sub, hcs]
            obtain ⟨rt, tail₁, hadv_t, hwt₁, hot₁, hrt, hpt₁⟩ :=
              ih tail (s - cur.index) hwft
            cases hpt : pending tail (s - cur.index) with
            | cons c' cs' =>
              have hrt' : rt = some (List.map Prod.snd c') := by
                rw [hrt, hpt]; rfl
              subst hrt'
              have hpn : pending (Node.zipped head orig tail cur) s =
                  ((cur.index, cur.value) :: c') ::
                    (cs'.map ((cur.index, cur.value) :: ·) ++
                      sumCombosFrom s orig.rest (cur.index + 1) (origItems tail)) := by
                simp only [pending, if_pos hcs, hpt, List.map_cons, List.cons_append]
              refine ⟨some (cur.value :: List.map Prod.snd c'),
                .zipped head orig tail₁ cur, ?_, ⟨hcount, hget, hhc, hhr, hwt₁⟩,
                by simp [origItems, hot₁], ?_, ?_⟩
              · rw [advanceU.eq_def]; simp only [hsub, hadv_t]
              · rw [hpn]; rfl
              · rw [hpn]
                simp only [pending, if_pos hcs, List.tail_cons]
                rw [hpt₁, hpt, List.tail_cons, hot₁]
            | nil =>
              have hrt' : rt = none := by rw [hrt, hpt]; rfl
              subst hrt'
              have hpt₁' : pending tail₁ (s - cur.index) = [] := by
                rw [hpt₁, hpt]; rfl
              rw [advanceU.eq_def]
              simp only [hsub, hadv_t]
              split
              case _ hnext =>
                -- head exhausted: nothing pending
                have hrest : head.rest = [] := Enumerate.next_eq_none.mp hnext
                have hgetn : orig.rest.get? (cur.index + 1) = none :=
                  drop_nil_get (by rw [← hhr, hrest])
                have hfrom : sumCombosFrom s orig.rest (cur.index + 1)
                    (origItems tail) = [] :=
                  sumCombosFrom_of_get_none hgetn _ _
                have hpn : pending (Node.zipped head orig tail cur) s = [] := by
                  simp only [pending, if_pos hcs, hpt, hfrom, List.map_nil,
                    List.nil_append]
                refine ⟨none, .zipped head orig tail₁ cur, rfl,
                  ⟨hcount, hget, hhc, hhr, hwt₁⟩, by simp [origItems, hot₁],
                  by simp [hpn], ?_⟩
                simp only [pending, if_pos hcs, hpt₁', hpt, hfrom, hot₁,
                  List.map_nil, List.nil_append, hpn, List.tail_nil]
              case _ iv head₁ hnext =>
                -- the loop, taken regardless of the removed guard
                cases hrest : head.rest with
                | nil =>
                  rw [Enumerate.next_eq_none.mpr hrest] at hnext
                  exact absurd hnext (by simp)
                | cons x r' =>
                  have hnx : head.next =
                      some ((head.count, x), ⟨head.count + 1, r'⟩) := by
                    unfold Enumerate.next
                    rw [hrest]
                  rw [hnx] at hnext
                  simp only [Option.some.injEq, Prod.mk.injEq] at hnext
                  obtain ⟨hiv, hhd⟩ := hnext
                  subst hiv
                  subst hhd
                  obtain ⟨tail₂, hrew, hwt₂, hft₂, hot₂⟩ :=
                    rewind_ok hwt₁ (WF.origItems_ne hwt₁)
                  rw [hrew]
                  have hdrop := drop_cons_get (hhr.symm.trans hrest)
                  have hwfN : WF (Node.zipped (⟨head.count + 1, r'⟩ : Enumerate α)
                      orig tail₂ ⟨(head.count, x).1, (head.count, x).2⟩) := by
                    refine ⟨hcount, ?_, ?_, ?_, hwt₂⟩
                    · show orig.rest.get? head.count = some x
                      rw [hhc]; exact hdrop.1
                    · rfl
                    · show r' = orig.rest.drop (head.count + 1)
                      rw [hhc]; exact hdrop.2.symm
                  have hfreshp : ∀ σ, pending tail₂ σ =
                      sumCombos σ (origItems tail) := by
                    intro σ
                    rw [pending_fresh hwt₂ hft₂, hot₂, hot₁]
                  have hpe : pending (Node.zipped (⟨head.count + 1, r'⟩ : Enumerate α)
                      orig tail₂ ⟨(head.count, x).1, (head.count, x).2⟩) s
                      = pending (Node.zipped head orig tail cur) s := by
                    by_cases hlt : cur.index < s
                    · show (if head.count ≤ s then _ else []) = _
                      rw [if_pos (show head.count ≤ s by omega)]
                      simp only [pending, if_pos hcs, hpt, List.map_nil,
                        List.nil_append, hfreshp]
                      rw [sumCombosFrom_of_get_some hdrop.1
                        (show cur.index + 1 ≤ s by omega)]
                      rw [hhc, hot₂, hot₁]
                    · -- cursor already at the threshold: both sides are empty
                      show (if head.count ≤ s then _ else []) = _
                      rw [if_neg (by omega)]
                      simp only [pending, if_pos hcs, hpt, List.map_nil,
                        List.nil_append]
                      rw [sumCombosFrom_of_gt (by omega)]
                  have hlen : r'.length < k := by
                    have : head.rest.length ≤ k := hk
                    rw [hrest] at this
                    simp at this
                    omega
                  obtain ⟨r, n'', hout, hwf'', horig'', hr, hp⟩ :=
                    ihk r'.length hlen ⟨head.count + 1, r'⟩ orig tail₂
                      ⟨(head.count, x).1, (head.count, x).2⟩ (le_refl _) hwfN
                  refine ⟨r, n'', hout, hwf'', ?_, ?_, ?_⟩
                  · rw [horig'']
                    show orig.rest :: origItems tail₂ = orig.rest :: origItems tail
                    rw [hot₂, hot₁]
                  · rw [hr, hpe]
                  · rw [hp, hpe]
      exact inner head.rest.length head orig tail cur (le_refl _) hwf

/-! ## Driver-level machinery -/

/-- One driver step, parameterized by the advance function (used to relate
the guarded and unguarded node implementations under the same driver). -/
def stepWith (adv : (e : Nat) → Node α e → Nat → Option (Option (List α) × Node α e))
    (m : BreadthFirstManager α d) : Option (Option (List α) × BreadthFirstManager α d) :=
  match adv d m.tail m.index_sum with
  | none => none
  | some (some v, t₁) => some (some v, ⟨t₁, m.index_sum⟩)
  | some (none, t₁) =>
    match checked_add1 m.index_sum with
    | none => some (none, ⟨t₁, m.index_sum⟩)
    | some s₁ =>
      match rewind t₁ with
      | none => none
      | some t₂ =>
        match adv d t₂ s₁ with
        | none => none
        | some (r, t₃) => some (r, ⟨t₃, s₁⟩)

/-- Iterate `stepWith adv` `k` times. -/
def runWith (adv : (e : Nat) → Node α e → Nat → Option (Option (List α) × Node α e)) :
    BreadthFirstManager α d → Nat →
      Option (List (Option (List α)) × BreadthFirstManager α d)
  | m, 0 => some ([], m)
  | m, k + 1 =>
    match stepWith adv m with
    | none => none
    | some (r, m₁) =>
      match runWith adv m₁ k with
      | none => none
      | some (rs, m₂) => some (r :: rs, m₂)

theorem next_eq_stepWith (m : BreadthFirstManager α d) :
    m.next = stepWith (fun e => advance (d := e)) m := rfl

theorem nextU_eq_stepWith (m : BreadthFirstManager α d) :
    nextU m = stepWith (fun e => advanceU (d := e)) m := rfl

theorem nextOuts_eq_runWith (m : BreadthFirstManager α d) (k : Nat) :
    nextOuts m k = runWith (fun e => advance (d := e)) m k := by
  induction k generalizing m with
  | zero => rfl
  | succ k ih =>
    rw [nextOuts, runWith, ← next_eq_stepWith]
    cases m.next with
    | none => rfl
    | some rm =>
      cases rm with
      | mk r m₁ => simp only [ih m₁]

theorem nextOutsU_eq_runWith (m : BreadthFirstManager α d) (k : Nat) :
    nextOutsU m k = runWith (fun e => advanceU (d := e)) m k := by
  induction k generalizing m with
  | zero => rfl
  | succ k ih =>
    rw [nextOutsU, runWith, ← nextU_eq_stepWith]
    cases nextU m with
    | none => rfl
    | some rm =>
      cases rm with
      | mk r m₁ => simp only [ih m₁]

/-- An advance function that satisfies the one-call contract on all
well-formed states. -/
def AdvOk (adv : (e : Nat) → Node α e → Nat → Option (Option (List α) × Node α e)) : Prop :=
  ∀ (e : Nat) (n : Node α e) (s : Nat), WF n → AdvanceSpec n s (adv e n s)

/-- The driver's future outputs, computed on the spec side from the current
threshold `s` and the combinations still pending at `s`. -/
def futureOuts (ls : List (List α)) :
    Nat → Nat → List (List (Nat × α)) → List (Option (List α))
  | 0, _, _ => []
  | k + 1, s, c :: p => some (c.map Prod.snd) :: futureOuts ls k s p
  | k + 1, s, [] =>
    if s + 1 < USIZE then
      match sumCombos (s + 1) ls with
      | [] => none :: futureOuts ls k (s + 1) []
      | c :: p => some (c.map Prod.snd) :: futureOuts ls k (s + 1) p
    else none :: futureOuts ls k s []

theorem runWith_spec
    (adv : (e : Nat) → Node α e → Nat → Option (Option (List α) × Node α e))
    (hadv : AdvOk adv) (ls : List (List α)) :
    ∀ (k : Nat) (t : Node α d) (s : Nat), WF t → origItems t = ls →
      ∃ m', runWith adv ⟨t, s⟩ k =
        some (futureOuts ls k s (pending t s), m') := by
  intro k
  induction k with
  | zero =>
    intro t s _ _
    exact ⟨⟨t, s⟩, by rw [runWith, futureOuts]⟩
  | succ k ih =>
    intro t s hwf hor
    obtain ⟨r, t₁, hout, hwf₁, horig₁, hr, hp₁⟩ := hadv d t s hwf
    rw [runWith]
    cases hpend : pending t s with
    | cons c p =>
      have hr' : r = some (List.map Prod.snd c) := by rw [hr, hpend]; rfl
      subst hr'
      obtain ⟨m', hm'⟩ := ih t₁ s hwf₁ (horig₁.trans hor)
      have hpt : pending t₁ s = p := by rw [hp₁, hpend]; rfl
      rw [hpt] at hm'
      refine ⟨m', ?_⟩
      rw [futureOuts]
      simp only [stepWith, hout, hm']
    | nil =>
      have hr' : r = none := by rw [hr, hpend]; rfl
      subst hr'
      have hp₁' : pending t₁ s = [] := by rw [hp₁, hpend]; rfl
      rw [futureOuts]
      by_cases hov : s + 1 < USIZE
      · have hca : checked_add1 s = some (s + 1) := by simp [checked_add1, hov]
        obtain ⟨t₂, hrew, hwt₂, hft₂, hot₂⟩ := rewind_ok hwf₁ (WF.origItems_ne hwf₁)
        obtain ⟨r₂, t₃, hout₂, hwf₃, horig₃, hr₂, hp₃⟩ :=
          hadv d t₂ (s + 1) hwt₂
        have hpt₂ : pending t₂ (s + 1) = sumCombos (s + 1) ls := by
          rw [pending_fresh hwt₂ hft₂, hot₂, horig₁, hor]
        rw [if_pos hov]
        cases hsc : sumCombos (s + 1) ls with
        | nil =>
          have hr₂' : r₂ = none := by rw [hr₂, hpt₂, hsc]; rfl
          subst hr₂'
          obtain ⟨m', hm'⟩ := ih t₃ (s + 1) hwf₃
            ((horig₃.trans hot₂).trans (horig₁.trans hor))
          have hpt₃ : pending t₃ (s + 1) = [] := by rw [hp₃, hpt₂, hsc]; rfl
          rw [hpt₃] at hm'
          refine ⟨m', ?_⟩
          simp only [stepWith, hout, hca, hrew, hout₂, hm']
        | cons c p =>
          have hr₂' : r₂ = some (List.map Prod.snd c) := by rw [hr₂, hpt₂, hsc]; rfl
          subst hr₂'
          obtain ⟨m', hm'⟩ := ih t₃ (s + 1) hwf₃
            ((horig₃.trans hot₂).trans (horig₁.trans hor))
          have hpt₃ : pending t₃ (s + 1) = p := by rw [hp₃, hpt₂, hsc]; rfl
          rw [hpt₃] at hm'
          refine ⟨m', ?_⟩
          simp only [stepWith, hout, hca, hrew, hout₂, hm']
      · have hca : checked_add1 s = none := by simp [checked_add1, hov]
        rw [if_neg hov]
        obtain ⟨m', hm'⟩ := ih t₁ s hwf₁ (horig₁.trans hor)
        rw [hp₁'] at hm'
        refine ⟨m', ?_⟩
        simp only [stepWith, hout, hca, hm']

/-! ## Combinatorial properties of the spec-side enumeration -/

theorem sumCombos_eq_nil_of_gt : ∀ (ls : List (List α)) (s : Nat),
    maxSum ls < s → sumCombos s ls = [] := by
  intro ls
  induction ls with
  | nil =>
    intro s hs
    rw [sumCombos_nil, if_neg (by simp [maxSum] at hs; omega)]
  | cons L ls ih =>
    intro s hs
    have hms : maxSum (L :: ls) = (L.length - 1) + maxSum ls := by
      simp [maxSum]
    rw [sumCombos_cons]
    have hfrom : ∀ (m i : Nat), L.length - i ≤ m → sumCombosFrom s L i ls = [] := by
      intro m
      induction m with
      | zero =>
        intro i hi
        exact sumCombosFrom_of_get_none (List.get?_eq_none.mpr (by omega)) _ _
      | succ m ihm =>
        intro i hi
        cases hg : L.get? i with
        | none => exact sumCombosFrom_of_get_none hg _ _
        | some v =>
          by_cases hle : i ≤ s
          · rw [sumCombosFrom_of_get_some hg hle]
            have hilt : i < L.length := (List.get?_eq_some.mp hg).choose
            rw [ih (s - i) (by omega), ihm (i + 1) (by omega)]
            simp
          · exact sumCombosFrom_of_gt (by omega) _ _
    exact hfrom L.length 0 (by omega)

theorem sumCombos_ne_nil : ∀ (ls : List (List α)), (∀ L ∈ ls, L ≠ []) →
    ∀ s : Nat, s ≤ maxSum ls → sumCombos s ls ≠ [] := by
  intro ls
  induction ls with
  | nil =>
    intro _ s hs
    rw [sumCombos_nil]
    simp [maxSum] at hs
    simp [hs]
  | cons L ls ih =>
    intro hne s hs
    have hLne : L ≠ [] := hne L (by simp)
    have hLlen : 1 ≤ L.length := by
      cases L with
      | nil => exact absurd rfl hLne
      | cons a as => simp
    have hms : maxSum (L :: ls) = (L.length - 1) + maxSum ls := by
      simp [maxSum]
    have hrec := ih (fun L' h' => hne L' (by simp [h']))
    rw [sumCombos_cons]
    -- the block at head index `j := s - maxSum ls` is non-empty
    set j := s - maxSum ls with hj
    have hjs : j ≤ s := by omega
    have hjlt : j < L.length := by omega
    have hsj : s - j ≤ maxSum ls := by omega
    have hblock := hrec (s - j) hsj
    have hfrom : ∀ (m i : Nat), i ≤ j → j - i ≤ m → sumCombosFrom s L i ls ≠ [] := by
      intro m
      induction m with
      | zero =>
        intro i hij hm
        have hieq : i = j := by omega
        subst hieq
        rw [sumCombosFrom_of_get_some (List.get?_eq_get hjlt) hjs]
        intro hcon
        rcases List.append_eq_nil.mp hcon with ⟨h1, _⟩
        exact hblock (List.map_eq_nil.mp h1)
      | succ m ihm =>
        intro i hij hm
        by_cases hieq : i = j
        · subst hieq
          rw [sumCombosFrom_of_get_some (List.get?_eq_get hjlt) hjs]
          intro hcon
          rcases List.append_eq_nil.mp hcon with ⟨h1, _⟩
          exact hblock (List.map_eq_nil.mp h1)
        · have hilt : i < j := by omega
          rw [sumCombosFrom_of_get_some (List.get?_eq_get (by omega)) (by omega)]
          intro hcon
          rcases List.append_eq_nil.mp hcon with ⟨_, h2⟩
          exact ihm (i + 1) (by omega) (by omega) h2
    exact hfrom j 0 (by omega) (by omega)

theorem mem_sumCombosFrom {c : List (Nat × α)} : ∀ (m s i : Nat) (L : List α)
    (ls : List (List α)), L.length - i ≤ m → c ∈ sumCombosFrom s L i ls →
    ∃ j v t, c = (j, v) :: t ∧ i ≤ j ∧ j ≤ s ∧ L.get? j = some v ∧
      t ∈ sumCombos (s - j) ls := by
  intro m
  induction m with
  | zero =>
    intro s i L ls hm hc
    rw [sumCombosFrom_of_get_none (List.get?_eq_none.mpr (by omega)) _ _] at hc
    exact absurd hc (by simp)
  | succ m ihm =>
    intro s i L ls hm hc
    cases hg : L.get? i with
    | none =>
      rw [sumCombosFrom_of_get_none hg _ _] at hc
      exact absurd hc (by simp)
    | some v =>
      by_cases hle : i ≤ s
      · rw [sumCombosFrom_of_get_some hg hle] at hc
        rcases List.mem_append.mp hc with h1 | h2
        · obtain ⟨t, ht, hct⟩ := List.mem_map.mp h1
          exact ⟨i, v, t, hct.symm, le_refl i, hle, hg, ht⟩
        · have hilt : i < L.length := (List.get?_eq_some.mp hg).choose
          obtain ⟨j, v', t, hct, hij, hjs, hgj, htm⟩ :=
            ihm s (i + 1) L ls (by omega) h2
          exact ⟨j, v', t, hct, by omega, hjs, hgj, htm⟩
      · rw [sumCombosFrom_of_gt (by omega) _ _] at hc
        exact absurd hc (by simp)

theorem mem_sumCombos_cons {c : List (Nat × α)} {L : List α} {ls : List (List α)}
    (hc : c ∈ sumCombos s (L :: ls)) :
    ∃ j v t, c = (j, v) :: t ∧ j ≤ s ∧ L.get? j = some v ∧
      t ∈ sumCombos (s - j) ls := by
  rw [sumCombos_cons] at hc
  obtain ⟨j, v, t, hct, _, hjs, hgj, htm⟩ :=
    mem_sumCombosFrom L.length s 0 L ls (by omega) hc
  exact ⟨j, v, t, hct, hjs, hgj, htm⟩

theorem mem_sumCombos_sum : ∀ (ls : List (List α)) (s : Nat) (c : List (Nat × α)),
    c ∈ sumCombos s ls → (c.map Prod.fst).sum = s := by
  intro ls
  induction ls with
  | nil =>
    intro s c hc
    rw [sumCombos_nil] at hc
    by_cases hs : s = 0
    · rw [if_pos hs] at hc
      simp at hc
      simp [hc, hs]
    · rw [if_neg hs] at hc
      exact absurd hc (by simp)
  | cons L ls ih =>
    intro s c hc
    obtain ⟨j, v, t, hct, hjs, _, htm⟩ := mem_sumCombos_cons hc
    subst hct
    have := ih (s - j) t htm
    simp [this]
    omega

/-- Validity: each entry of a combination is the element of its sequence at
the claimed position. -/
theorem mem_sumCombos_forall2 : ∀ (ls : List (List α)) (s : Nat) (c : List (Nat × α)),
    c ∈ sumCombos s ls →
    List.Forall₂ (fun (e : Nat × α) (L : List α) => L.get? e.1 = some e.2) c ls := by
  intro ls
  induction ls with
  | nil =>
    intro s c hc
    rw [sumCombos_nil] at hc
    by_cases hs : s = 0
    · rw [if_pos hs] at hc
      simp at hc
      simp [hc]
    · rw [if_neg hs] at hc
      exact absurd hc (by simp)
  | cons L ls ih =>
    intro s c hc
    obtain ⟨j, v, t, hct, _, hgj, htm⟩ := mem_sumCombos_cons hc
    subst hct
    exact List.Forall₂.cons hgj (ih (s - j) t htm)

/-- Within one index sum, the enumeration is strictly ascending in
lexicographic order of the index tuples. -/
theorem pairwise_lex_sumCombos : ∀ (ls : List (List α)) (s : Nat),
    List.Pairwise (fun a b =>
      List.Lex (· < ·) (a.map Prod.fst) (b.map Prod.fst)) (sumCombos s ls) := by
  intro ls
  induction ls with
  | nil =>
    intro s
    rw [sumCombos_nil]
    split <;> simp
  | cons L ls ih =>
    intro s
    rw [sumCombos_cons]
    have hfrom : ∀ (m i : Nat), L.length - i ≤ m →
        List.Pairwise (fun a b =>
          List.Lex (· < ·) (a.map Prod.fst) (b.map Prod.fst))
          (sumCombosFrom s L i ls) := by
      intro m
      induction m with
      | zero =>
        intro i hi
        rw [sumCombosFrom_of_get_none (List.get?_eq_none.mpr (by omega)) _ _]
        exact List.Pairwise.nil
      | succ m ihm =>
        intro i hi
        cases hg : L.get? i with
        | none =>
          rw [sumCombosFrom_of_get_none hg _ _]
          exact List.Pairwise.nil
        | some v =>
          by_cases hle : i ≤ s
          · rw [sumCombosFrom_of_get_some hg hle]
            have hilt : i < L.length := (List.get?_eq_some.mp hg).choose
            rw [List.pairwise_append]
            refine ⟨?_, ihm (i + 1) (by omega), ?_⟩
            · rw [List.pairwise_map]
              exact (ih (s - i)).imp (fun h => by
                simpa using List.Lex.cons (by simpa using h))
            · intro a ha b hb
              obtain ⟨t, _, hat⟩ := List.mem_map.mp ha
              obtain ⟨j, v', t', hbt, hij, _, _, _⟩ :=
                mem_sumCombosFrom L.length s (i + 1) L ls (by omega) hb
              rw [← hat, hbt]
              simpa using List.Lex.rel (by omega)
          · rw [sumCombosFrom_of_gt (by omega) _ _]
            exact List.Pairwise.nil
    exact hfrom L.length 0 (by omega)

theorem length_sumCombosFrom : ∀ (m s i : Nat) (L : List α) (ls : List (List α)),
    L.length - i ≤ m →
    (sumCombosFrom s L i ls).length =
      ∑ j ∈ Finset.Ico i L.length,
        if j ≤ s then (sumCombos (s - j) ls).length else 0 := by
  intro m
  induction m with
  | zero =>
    intro s i L ls hm
    rw [sumCombosFrom_of_get_none (List.get?_eq_none.mpr (by omega)) _ _]
    rw [Finset.Ico_eq_empty (by omega)]
    simp
  | succ m ihm =>
    intro s i L ls hm
    cases hg : L.get? i with
    | none =>
      have hlen : L.length ≤ i := List.get?_eq_none.mp hg
      rw [sumCombosFrom_of_get_none hg _ _]
      rw [Finset.Ico_eq_empty (by omega)]
      simp
    | some v =>
      have hilt : i < L.length := (List.get?_eq_some.mp hg).choose
      by_cases hle : i ≤ s
      · rw [sumCombosFrom_of_get_some hg hle]
        rw [List.length_append, List.length_map]
        rw [Finset.sum_eq_sum_Ico_succ_bot hilt]
        rw [if_pos hle, ihm s (i + 1) L ls (by omega)]
      · rw [sumCombosFrom_of_gt (by omega) _ _]
        symm
        rw [Finset.sum_eq_zero]
        · rfl
        · intro j hj
          rw [if_neg (by have := (Finset.mem_Ico.mp hj).1; omega)]

/-- Completeness count: summed over all achievable index sums, the
enumeration has exactly `L1 * L2 * … * LN` combinations. -/
theorem sum_length_sumCombos : ∀ (ls : List (List α)), (∀ L ∈ ls, L ≠ []) →
    ∀ K : Nat, maxSum ls < K →
    (∑ s ∈ Finset.range K, (sumCombos s ls).length) = totalProd ls := by
  intro ls
  induction ls with
  | nil =>
    intro _ K hK
    have hK0 : 0 < K := by omega
    have h1 : ∀ s : Nat, (sumCombos (α := α) s []).length = if s = 0 then 1 else 0 := by
      intro s
      rw [sumCombos_nil]
      split <;> rfl
    calc ∑ s ∈ Finset.range K, (sumCombos (α := α) s []).length
        = ∑ s ∈ Finset.range K, if s = 0 then 1 else 0 :=
          Finset.sum_congr rfl (fun s _ => h1 s)
      _ = 1 := by
          rw [Finset.sum_ite_eq' (Finset.range K) 0 (fun _ => 1),
            if_pos (Finset.mem_range.mpr hK0)]
      _ = totalProd [] := rfl
  | cons L ls ih =>
    intro hne K hK
    have hLne : L ≠ [] := hne L (by simp)
    have hLlen : 1 ≤ L.length := by
      cases L with
      | nil => exact absurd rfl hLne
      | cons a as => simp
    have hms : maxSum (L :: ls) = (L.length - 1) + maxSum ls := by
      simp [maxSum]
    have hrec := ih (fun L' h' => hne L' (by simp [h']))
    have hcol : ∀ j ∈ Finset.Ico 0 L.length,
        (∑ s ∈ Finset.range K, if j ≤ s then (sumCombos (s - j) ls).length else 0)
          = totalProd ls := by
      intro j hj
      have hjlt : j < L.length := (Finset.mem_Ico.mp hj).2
      have hjK : j < K := by omega
      have hKj : maxSum ls < K - j := by omega
      rw [Finset.range_eq_Ico, ← Finset.sum_Ico_consecutive _
        (Nat.zero_le j) (le_of_lt hjK)]
      rw [Finset.sum_eq_zero (fun s hs => by
        rw [if_neg (by have := (Finset.mem_Ico.mp hs).2; omega)]), zero_add]
      rw [Finset.sum_congr rfl (fun s hs => if_pos (Finset.mem_Ico.mp hs).1)]
      rw [Finset.sum_Ico_eq_sum_range]
      rw [Finset.sum_congr rfl (fun t _ => by
        rw [show j + t - j = t by omega])]
      exact hrec (K - j) hKj
    calc ∑ s ∈ Finset.range K, (sumCombos s (L :: ls)).length
        = ∑ s ∈ Finset.range K, ∑ j ∈ Finset.Ico 0 L.length,
            if j ≤ s then (sumCombos (s - j) ls).length else 0 :=
          Finset.sum_congr rfl (fun s _ => by
            rw [sumCombos_cons, length_sumCombosFrom L.length s 0 L ls (by omega)])
      _ = ∑ j ∈ Finset.Ico 0 L.length, ∑ s ∈ Finset.range K,
            if j ≤ s then (sumCombos (s - j) ls).length else 0 :=
          Finset.sum_comm
      _ = ∑ _ ∈ Finset.Ico 0 L.length, totalProd ls :=
          Finset.sum_congr rfl hcol
      _ = L.length * totalProd ls := by
          rw [Finset.sum_const, Nat.card_Ico]
          simp [Nat.smul_one_eq_cast]
      _ = totalProd (L :: ls) := by simp [totalProd]

/-! ## The closed form of the driver's output stream -/

/-- The combinations the driver will still reach after finishing threshold
`s`: index sums `s + 1` up to the last achievable and representable one. -/
def sumsFrom (ls : List (List α)) (s : Nat) : List (List (Nat × α)) :=
  (List.range' (s + 1) (min (maxSum ls) (USIZE - 1) + 1 - (s + 1))).flatMap
    (fun t => sumCombos t ls)

theorem sumsFrom_of_ge {ls : List (List α)} {s : Nat}
    (h : min (maxSum ls) (USIZE - 1) ≤ s) : sumsFrom ls s = [] := by
  unfold sumsFrom
  rw [show min (maxSum ls) (USIZE - 1) + 1 - (s + 1) = 0 by omega]
  rfl

theorem sumsFrom_succ {ls : List (List α)} {s : Nat}
    (h : s < min (maxSum ls) (USIZE - 1)) :
    sumsFrom ls s = sumCombos (s + 1) ls ++ sumsFrom ls (s + 1) := by
  unfold sumsFrom
  rw [show min (maxSum ls) (USIZE - 1) + 1 - (s + 1)
    = (min (maxSum ls) (USIZE - 1) + 1 - (s + 2)) + 1 by omega]
  rw [List.range'_succ, List.flatMap_cons]

theorem emitted_eq (ls : List (List α)) :
    emitted ls = sumCombos 0 ls ++ sumsFrom ls 0 := by
  unfold emitted sumsFrom
  rw [List.range_eq_range', List.range'_succ, List.flatMap_cons]
  rw [show maxSum ls ⊓ (USIZE - 1) + 1 - (0 + 1) = maxSum ls ⊓ (USIZE - 1) by omega]

theorem futureOuts_closed (ls : List (List α)) (hne : ∀ L ∈ ls, L ≠ []) :
    ∀ (k s : Nat) (p : List (List (Nat × α))), s < USIZE →
      futureOuts ls k s p = (List.range k).map
        (fun j => ((p ++ sumsFrom ls s).get? j).map (List.map Prod.snd)) := by
  intro k
  induction k with
  | zero => intro s p _; rfl
  | succ k ih =>
    intro s p hs
    cases p with
    | cons c p' =>
      rw [futureOuts, ih s p' hs, List.range_succ_eq_map, List.map_cons]
      congr 1
      rw [List.map_map]
      apply List.map_congr_left
      intro j _
      simp
    | nil =>
      rw [futureOuts]
      by_cases hov : s + 1 < USIZE
      · rw [if_pos hov]
        by_cases hmax : s + 1 ≤ maxSum ls
        · have hlt : s < min (maxSum ls) (USIZE - 1) := by omega
          have hR := sumsFrom_succ hlt
          cases hsc : sumCombos (s + 1) ls with
          | nil => exact absurd hsc (sumCombos_ne_nil ls hne (s + 1) hmax)
          | cons c p' =>
            show some (List.map Prod.snd c) :: futureOuts ls k (s + 1) p' = _
            rw [ih (s + 1) p' hov, List.range_succ_eq_map, List.map_cons]
            congr 1
            · simp [hR, hsc]
            · rw [List.map_map]
              apply List.map_congr_left
              intro j _
              simp [hR, hsc]
        · have hR0 : sumsFrom ls s = [] := sumsFrom_of_ge (by omega)
          have hR1 : sumsFrom ls (s + 1) = [] := sumsFrom_of_ge (by omega)
          have hsc : sumCombos (s + 1) ls = [] :=
            sumCombos_eq_nil_of_gt ls (s + 1) (by omega)
          rw [hsc]
          show none :: futureOuts ls k (s + 1) [] = _
          rw [ih (s + 1) [] hov, List.range_succ_eq_map, List.map_cons]
          congr 1
          · simp [hR0]
          · rw [List.map_map]
            apply List.map_congr_left
            intro j _
            simp [hR0, hR1]
      · rw [if_neg hov]
        have hR0 : sumsFrom ls s = [] := sumsFrom_of_ge (by omega)
        rw [ih s [] hs, List.range_succ_eq_map, List.map_cons]
        congr 1
        · simp [hR0]
        · rw [List.map_map]
          apply List.map_congr_left
          intro j _
          simp [hR0]

/-! ## Master theorems: the full output stream of the driver -/

theorem advance_AdvOk : AdvOk (α := α) (fun e => advance (d := e)) :=
  fun e n s hwf => advance_ok e n s hwf

theorem advanceU_AdvOk : AdvOk (α := α) (fun e => advanceU (d := e)) :=
  fun e n s hwf => advanceU_ok e n s hwf

theorem breadth_first_zip_ok {ls : List (List α)}
    {m₀ : BreadthFirstManager α ls.length} (hm : breadth_first_zip ls = .ok m₀) :
    ∃ n, unflatten ls = .ok n ∧ m₀ = ⟨n, 0⟩ := by
  unfold breadth_first_zip at hm
  cases hu : unflatten (α := α) ls with
  | error e => rw [hu] at hm; exact absurd hm (by simp)
  | ok n =>
    rw [hu] at hm
    simp only [Except.ok.injEq] at hm
    exact ⟨n, rfl, hm.symm⟩

/-- The full characterization of the driver: the `j`-th call yields the
values of the `j`-th element of `emitted ls`, and end-of-data when `j` is
past the end. -/
theorem driver_stream {ls : List (List α)} {m₀ : BreadthFirstManager α ls.length}
    (hm : breadth_first_zip ls = .ok m₀) (k : Nat) :
    ∃ m', nextOuts m₀ k = some ((List.range k).map
      (fun j => ((emitted ls).get? j).map (List.map Prod.snd)), m') := by
  obtain ⟨n, hu, hm₀⟩ := breadth_first_zip_ok hm
  obtain ⟨hwf, hfresh, horig, hne⟩ := unflatten_ok hu
  subst hm₀
  rw [nextOuts_eq_runWith]
  obtain ⟨m', hm'⟩ := runWith_spec _ advance_AdvOk ls k n 0 hwf horig
  rw [pending_fresh hwf hfresh 0, horig] at hm'
  rw [futureOuts_closed ls hne k 0 (sumCombos 0 ls)
    (by norm_num [USIZE])] at hm'
  rw [← emitted_eq] at hm'
  exact ⟨m', hm'⟩

/-- The same characterization for the driver running the unguarded variant. -/
theorem driver_streamU {ls : List (List α)} {m₀ : BreadthFirstManager α ls.length}
    (hm : breadth_first_zip ls = .ok m₀) (k : Nat) :
    ∃ m', nextOutsU m₀ k = some ((List.range k).map
      (fun j => ((emitted ls).get? j).map (List.map Prod.snd)), m') := by
  obtain ⟨n, hu, hm₀⟩ := breadth_first_zip_ok hm
  obtain ⟨hwf, hfresh, horig, hne⟩ := unflatten_ok hu
  subst hm₀
  rw [nextOutsU_eq_runWith]
  obtain ⟨m', hm'⟩ := runWith_spec _ advanceU_AdvOk ls k n 0 hwf horig
  rw [pending_fresh hwf hfresh 0, horig] at hm'
  rw [futureOuts_closed ls hne k 0 (sumCombos 0 ls)
    (by norm_num [USIZE])] at hm'
  rw [← emitted_eq] at hm'
  exact ⟨m', hm'⟩

/-! ## Properties of the emitted enumeration -/

theorem sum_map_range (f : Nat → Nat) :
    ∀ K : Nat, ((List.range K).map f).sum = ∑ s ∈ Finset.range K, f s := by
  intro K
  induction K with
  | zero => simp
  | succ K ih =>
    rw [List.range_succ, List.map_append, List.sum_append, Finset.sum_range_succ, ih]
    simp

/-- Completeness: the driver's total emission count is the product of the
sequence lengths, provided the maximum index sum is representable. -/
theorem length_emitted {ls : List (List α)} (hne : ∀ L ∈ ls, L ≠ [])
    (hcap : maxSum ls < USIZE) : (emitted ls).length = totalProd ls := by
  unfold emitted
  rw [show min (maxSum ls) (USIZE - 1) = maxSum ls by omega]
  rw [List.length_flatMap, sum_map_range]
  exact sum_length_sumCombos ls hne (maxSum ls + 1) (by omega)

theorem lex_nat_irrefl : ∀ (l : List Nat), ¬ List.Lex (· < ·) l l := by
  intro l
  induction l with
  | nil => intro h; cases h
  | cons a l ih =>
    intro h
    cases h with
    | cons h => exact ih h
    | rel h => exact absurd h (lt_irrefl a)

/-- Breadth-first order of the whole emission sequence: strictly increasing
in (index sum, lexicographic index tuple). -/
theorem pairwise_emitted (ls : List (List α)) :
    List.Pairwise (fun a b =>
      (a.map Prod.fst).sum < (b.map Prod.fst).sum ∨
      ((a.map Prod.fst).sum = (b.map Prod.fst).sum ∧
        List.Lex (· < ·) (a.map Prod.fst) (b.map Prod.fst))) (emitted ls) := by
  unfold emitted
  rw [List.flatMap_def, List.pairwise_flatten]
  constructor
  · intro l' hl'
    obtain ⟨s, _, hs⟩ := List.mem_map.mp hl'
    subst hs
    refine List.Pairwise.imp_of_mem ?_ (pairwise_lex_sumCombos ls s)
    intro a b ha hb hlex
    exact Or.inr ⟨by rw [mem_sumCombos_sum ls s a ha, mem_sumCombos_sum ls s b hb],
      hlex⟩
  · rw [List.pairwise_map]
    refine List.Pairwise.imp_of_mem ?_ (List.pairwise_lt_range _)
    intro s s' _ _ hlt x hx y hy
    exact Or.inl (by
      rw [mem_sumCombos_sum ls s x hx, mem_sumCombos_sum ls s' y hy]
      exact hlt)

/-- No combination (identified by its index tuple) is emitted twice. -/
theorem nodup_emitted_ixs (ls : List (List α)) :
    ((emitted ls).map (fun c => c.map Prod.fst)).Nodup := by
  show List.Pairwise _ _
  refine List.Pairwise.map _ ?_ (pairwise_emitted ls)
  intro a b hab heq
  rcases hab with hlt | ⟨_, hlex⟩
  · rw [heq] at hlt
    exact absurd hlt (lt_irrefl _)
  · rw [heq] at hlex
    exact lex_nat_irrefl _ hlex

theorem mem_emitted_forall2 {ls : List (List α)} {c : List (Nat × α)}
    (hc : c ∈ emitted ls) :
    List.Forall₂ (fun (e : Nat × α) (L : List α) => L.get? e.1 = some e.2) c ls := by
  obtain ⟨s, _, hcs⟩ := List.mem_flatMap.mp hc
  exact mem_sumCombos_forall2 ls s c hcs

/-- Reading a stream prefix as a map over `List.range` of `get?` turns into
an explicit `map … ++ [none]` when the prefix is one longer than the list. -/
theorem range_map_get {β γ : Type} (g : β → γ) :
    ∀ E : List β, (List.range (E.length + 1)).map (fun j => (E.get? j).map g)
      = E.map (fun c => some (g c)) ++ [none] := by
  intro E
  induction E with
  | nil => rfl
  | cons e E ih =>
    rw [show (e :: E).length + 1 = (E.length + 1) + 1 by simp]
    rw [List.range_succ_eq_map, List.map_cons, List.map_map]
    rw [show ((fun j => ((e :: E).get? j).map g) ∘ Nat.succ)
      = (fun j => (E.get? j).map g) from funext (fun j => by simp)]
    rw [ih]
    simp

/-! ## Claim theorems -/

/-- **C6** — `BaseCase::advance(threshold)` succeeds (returning the unit
value) if and only if `threshold == 0` and the available flag is true;
success flips the flag to false, so it succeeds exactly once per restart
cycle; every other call returns none and leaves the flag unchanged; and
`rewind` sets the flag back to true. -/
theorem C6_base_one_shot : ∀ (s : Nat) (b : Bool),
    ((∃ v t, advance (Node.baseCase (α := α) b) s = some (some v, t)) ↔
      (s = 0 ∧ b = true)) ∧
    (s = 0 ∧ b = true →
      advance (Node.baseCase (α := α) b) s = some (some [], .baseCase false)) ∧
    (¬(s = 0 ∧ b = true) →
      advance (Node.baseCase (α := α) b) s = some (none, .baseCase b)) ∧
    rewind (Node.baseCase (α := α) b) = some (.baseCase true) := by
  intro s b
  refine ⟨⟨?_, ?_⟩, ?_, ?_, rfl⟩
  · rintro ⟨v, t, hv⟩
    by_cases hb : s = 0 ∧ b = true
    · exact hb
    · rw [advance.eq_def] at hv
      simp [hb] at hv
  · intro hb
    exact ⟨[], .baseCase false, by rw [advance.eq_def]; simp [hb.1, hb.2]⟩
  · intro hb
    rw [advance.eq_def]
    simp [hb.1, hb.2]
  · intro hb
    rw [advance.eq_def]
    simp [hb]

theorem C6_base_one_shot_witness :
    ((0 : Nat) = 0 ∧ true = true) ∧
    advance (Node.baseCase (α := Nat) true) 0 = some (some [], .baseCase false) :=
  ⟨by decide, (C6_base_one_shot 0 true).2.1 (by decide)⟩

/-- **C9** — the empty tuple (arity 0): construction always succeeds, the
first `next()` yields exactly one combination (the empty tuple), and every
subsequent call yields end-of-data. -/
theorem C9_empty_tuple (α : Type) (k : Nat) :
    breadth_first_zip ([] : List (List α)) = .ok ⟨.baseCase true, 0⟩ ∧
    ∃ m', nextOuts (⟨.baseCase true, 0⟩ : BreadthFirstManager α 0) k =
      some ((List.range k).map (fun j => if j = 0 then some [] else none), m') := by
  refine ⟨rfl, ?_⟩
  obtain ⟨m', hm'⟩ := driver_stream (show breadth_first_zip ([] : List (List α))
    = .ok ⟨.baseCase true, 0⟩ from rfl) k
  refine ⟨m', ?_⟩
  rw [hm']
  congr 2
  apply List.map_congr_left
  intro j _
  have he : emitted ([] : List (List α)) = [[]] := by
    unfold emitted
    rw [show min (maxSum ([] : List (List α))) (USIZE - 1) + 1 = 1 by
      simp [maxSum]]
    rw [show List.range 1 = [0] from rfl, List.flatMap_cons]
    rw [sumCombos_nil]
    rfl
  rw [he]
  cases j with
  | zero => rfl
  | succ j => simp

/-- **C10** — `rewind` never panics: on any well-formed node state (in
particular on every node chain built through `new`, which requires each head
iterator to be non-empty), the `unwrap` of the first element of the
re-cloned original iterator succeeds, and the rewound chain is well-formed
and fresh: every cursor at position 0 holding its sequence's first element,
with the tail fully rewound.  Cloning an iterator is the identity on lists
in this model, so it preserves the yielded elements by construction. -/
theorem C10_rewind_no_panic :
    (∀ (d : Nat) (n : Node α d), WF n →
      ∃ n', rewind n = some n' ∧ WF n' ∧ Fresh n' ∧ origItems n' = origItems n) ∧
    (∀ (ls : List (List α)) (n : Node α ls.length), unflatten ls = .ok n →
      ∃ n', rewind n = some n' ∧ WF n' ∧ Fresh n' ∧ origItems n' = ls) := by
  constructor
  · intro d n hwf
    exact rewind_ok hwf (WF.origItems_ne hwf)
  · intro ls n hu
    obtain ⟨hwf, _, horig, _⟩ := unflatten_ok hu
    obtain ⟨n', h1, h2, h3, h4⟩ := rewind_ok hwf (WF.origItems_ne hwf)
    exact ⟨n', h1, h2, h3, by rw [h4, horig]⟩

theorem C10_rewind_no_panic_witness :
    unflatten [[(7 : Nat)]] =
      .ok (.zipped ⟨1, []⟩ ⟨0, [7]⟩ (.baseCase true) ⟨0, 7⟩) ∧
    ∃ n', rewind (Node.zipped (⟨1, []⟩ : Enumerate Nat) ⟨0, [7]⟩
        (.baseCase true) ⟨0, 7⟩) = some n' ∧ WF n' ∧ Fresh n' ∧
      origItems n' = [[7]] :=
  ⟨rfl, C10_rewind_no_panic.2 [[7]] _ rfl⟩

/-- **C4** — post-exhaustion stability: in any run of the driver, once some
call has returned end-of-data, every later call also returns end-of-data. -/
theorem C4_stable_end :
    ∀ (ls : List (List α)) (m₀ : BreadthFirstManager α ls.length),
      breadth_first_zip ls = .ok m₀ →
      ∀ (k : Nat) (outs : List (Option (List α))) (m' : BreadthFirstManager α ls.length),
        nextOuts m₀ k = some (outs, m') →
        ∀ i j : Nat, i ≤ j → j < k →
          outs.get? i = some none → outs.get? j = some none := by
  intro ls m₀ hm k outs m' houts i j hij hjk hi
  obtain ⟨m'', hm''⟩ := driver_stream hm k
  rw [houts] at hm''
  simp only [Option.some.injEq, Prod.mk.injEq] at hm''
  obtain ⟨houts_eq, _⟩ := hm''
  subst houts_eq
  have hik : i < k := by omega
  have hgeti : ∀ t, t < k → ((List.range k).map
      (fun u => ((emitted ls).get? u).map (List.map Prod.snd))).get? t
      = some (((emitted ls).get? t).map (List.map Prod.snd)) := by
    intro t ht
    rw [List.get?_map, List.get?_range ht]
    rfl
  rw [hgeti i hik] at hi
  rw [hgeti j hjk]
  simp only [Option.some.injEq] at hi ⊢
  have hnone : (emitted ls).get? i = none := Option.map_eq_none'.mp hi
  have hlen : (emitted ls).length ≤ i := List.get?_eq_none.mp hnone
  rw [List.get?_eq_none.mpr (by omega)]
  rfl

theorem C4_stable_end_witness :
    breadth_first_zip [[(5 : Nat)]] =
      .ok ⟨.zipped ⟨1, []⟩ ⟨0, [5]⟩ (.baseCase true) ⟨0, 5⟩, 0⟩ ∧
    nextOuts (⟨.zipped ⟨1, []⟩ ⟨0, [5]⟩ (.baseCase true) ⟨0, 5⟩, 0⟩ :
        BreadthFirstManager Nat 1) 3 =
      some ([some [5], none, none],
        ⟨.zipped ⟨1, []⟩ ⟨0, [5]⟩ (.baseCase true) ⟨0, 5⟩, 2⟩) ∧
    (1 : Nat) ≤ 2 ∧ (2 : Nat) < 3 ∧
    ([some ([5] : List Nat), none, none].get? 1 = some none) ∧
    ([some ([5] : List Nat), none, none].get? 2 = some none) := by
  have a1 : advance (Node.zipped (⟨1, []⟩ : Enumerate Nat) ⟨0, [5]⟩
        (.baseCase true) ⟨0, 5⟩) 0
      = some (some [5], .zipped ⟨1, []⟩ ⟨0, [5]⟩ (.baseCase false) ⟨0, 5⟩) := by
    rw [advance.eq_def]; simp [checked_sub]; rw [advance.eq_def]; simp
  have a2 : advance (Node.zipped (⟨1, []⟩ : Enumerate Nat) ⟨0, [5]⟩
        (.baseCase false) ⟨0, 5⟩) 0
      = some (none, .zipped ⟨1, []⟩ ⟨0, [5]⟩ (.baseCase false) ⟨0, 5⟩) := by
    rw [advance.eq_def]; simp [checked_sub]; rw [advance.eq_def]; simp
  have a3 : advance (Node.zipped (⟨1, []⟩ : Enumerate Nat) ⟨0, [5]⟩
        (.baseCase true) ⟨0, 5⟩) 1
      = some (none, .zipped ⟨1, []⟩ ⟨0, [5]⟩ (.baseCase true) ⟨0, 5⟩) := by
    rw [advance.eq_def]; simp [checked_sub]; rw [advance.eq_def]
    simp [Enumerate.next]
  have a4 : advance (Node.zipped (⟨1, []⟩ : Enumerate Nat) ⟨0, [5]⟩
        (.baseCase true) ⟨0, 5⟩) 2
      = some (none, .zipped ⟨1, []⟩ ⟨0, [5]⟩ (.baseCase true) ⟨0, 5⟩) := by
    rw [advance.eq_def]; simp [checked_sub]; rw [advance.eq_def]
    simp [Enumerate.next]
  have hca0 : checked_add1 0 = some 1 := by simp [checked_add1, USIZE]
  have hca1 : checked_add1 1 = some 2 := by simp [checked_add1, USIZE]
  have hrw : rewind (Node.zipped (⟨1, []⟩ : Enumerate Nat) ⟨0, [5]⟩
        (.baseCase false) ⟨0, 5⟩)
      = some (.zipped ⟨1, []⟩ ⟨0, [5]⟩ (.baseCase true) ⟨0, 5⟩) := by
    simp [rewind, Enumerate.next]
  have hrw2 : rewind (Node.zipped (⟨1, []⟩ : Enumerate Nat) ⟨0, [5]⟩
        (.baseCase true) ⟨0, 5⟩)
      = some (.zipped ⟨1, []⟩ ⟨0, [5]⟩ (.baseCase true) ⟨0, 5⟩) := by
    simp [rewind, Enumerate.next]
  have n1 : BreadthFirstManager.next
      (⟨.zipped ⟨1, []⟩ ⟨0, [5]⟩ (.baseCase true) ⟨0, 5⟩, 0⟩ :
        BreadthFirstManager Nat 1)
      = some (some [5], ⟨.zipped ⟨1, []⟩ ⟨0, [5]⟩ (.baseCase false) ⟨0, 5⟩, 0⟩) := by
    simp only [BreadthFirstManager.next, a1]
  have n2 : BreadthFirstManager.next
      (⟨.zipped ⟨1, []⟩ ⟨0, [5]⟩ (.baseCase false) ⟨0, 5⟩, 0⟩ :
        BreadthFirstManager Nat 1)
      = some (none, ⟨.zipped ⟨1, []⟩ ⟨0, [5]⟩ (.baseCase true) ⟨0, 5⟩, 1⟩) := by
    simp only [BreadthFirstManager.next, a2, hca0, hrw, a3]
  have n3 : BreadthFirstManager.next
      (⟨.zipped ⟨1, []⟩ ⟨0, [5]⟩ (.baseCase true) ⟨0, 5⟩, 1⟩ :
        BreadthFirstManager Nat 1)
      = some (none, ⟨.zipped ⟨1, []⟩ ⟨0, [5]⟩ (.baseCase true) ⟨0, 5⟩, 2⟩) := by
    simp only [BreadthFirstManager.next, a3, hca1, hrw2, a4]
  have houts : nextOuts (⟨.zipped ⟨1, []⟩ ⟨0, [5]⟩ (.baseCase true) ⟨0, 5⟩, 0⟩ :
        BreadthFirstManager Nat 1) 3 =
      some ([some [5], none, none],
        ⟨.zipped ⟨1, []⟩ ⟨0, [5]⟩ (.baseCase true) ⟨0, 5⟩, 2⟩) := by
    simp only [nextOuts, n1, n2, n3]
  refine ⟨rfl, houts, by decide, by decide, by decide, ?_⟩
  exact C4_stable_end [[5]] _ rfl 3 _ _ houts 1 2 (by decide) (by decide) (by decide)

/-- **C2** — breadth-first order: the driver's `j`-th emission is the `j`-th
element of `emitted ls`, and `emitted ls` is strictly increasing in
(index sum, lexicographic order of the index tuple).  Hence consecutive
emissions have non-decreasing index sums, and emissions sharing one index
sum appear in ascending lexicographic order of their index tuples. -/
theorem C2_breadth_first_order :
    ∀ (ls : List (List α)) (m₀ : BreadthFirstManager α ls.length),
      breadth_first_zip ls = .ok m₀ →
      (∀ k, ∃ m', nextOuts m₀ k = some ((List.range k).map
        (fun j => ((emitted ls).get? j).map (List.map Prod.snd)), m')) ∧
      List.Pairwise (fun a b =>
        (a.map Prod.fst).sum < (b.map Prod.fst).sum ∨
        ((a.map Prod.fst).sum = (b.map Prod.fst).sum ∧
          List.Lex (· < ·) (a.map Prod.fst) (b.map Prod.fst))) (emitted ls) :=
  fun _ _ hm => ⟨fun k => driver_stream hm k, pairwise_emitted _⟩

theorem C2_breadth_first_order_witness :
    breadth_first_zip [[0, 1], [0, 1]] =
      .ok ⟨.zipped ⟨1, [1]⟩ ⟨0, [0, 1]⟩
        (.zipped ⟨1, [1]⟩ ⟨0, [0, 1]⟩ (.baseCase true) ⟨0, 0⟩) ⟨0, 0⟩, 0⟩ ∧
    List.Pairwise (fun a b =>
      (a.map Prod.fst).sum < (b.map Prod.fst).sum ∨
      ((a.map Prod.fst).sum = (b.map Prod.fst).sum ∧
        List.Lex (· < ·) (a.map Prod.fst) (b.map Prod.fst)))
      (emitted [[(0 : Nat), 1], [0, 1]]) :=
  ⟨rfl, (C2_breadth_first_order [[0, 1], [0, 1]] _ rfl).2⟩

/-- **C8** — the `cursor.position < threshold` guard is only an optimization:
the driver built on the unguarded `advanceU` (which keeps advancing the head
cursor after a tail failure, stopping only via head-iterator exhaustion or
the `checked_sub` failure) produces exactly the same sequence of results as
the driver built on the guarded `advance`, for every tuple of finite
non-empty input sequences. -/
theorem C8_guard_optimization :
    ∀ (ls : List (List α)) (m₀ : BreadthFirstManager α ls.length),
      (∀ L ∈ ls, L ≠ []) → breadth_first_zip ls = .ok m₀ →
      ∀ k, (nextOutsU m₀ k).map Prod.fst = (nextOuts m₀ k).map Prod.fst := by
  intro ls m₀ _ hm k
  obtain ⟨m1, h1⟩ := driver_streamU hm k
  obtain ⟨m2, h2⟩ := driver_stream hm k
  rw [h1, h2]
  rfl

theorem C8_guard_optimization_witness :
    (∀ L ∈ [[(0 : Nat), 1], [0, 1]], L ≠ []) ∧
    breadth_first_zip [[0, 1], [0, 1]] =
      .ok ⟨.zipped ⟨1, [1]⟩ ⟨0, [0, 1]⟩
        (.zipped ⟨1, [1]⟩ ⟨0, [0, 1]⟩ (.baseCase true) ⟨0, 0⟩) ⟨0, 0⟩, 0⟩ ∧
    (nextOutsU (⟨.zipped ⟨1, [1]⟩ ⟨0, [0, 1]⟩
        (.zipped ⟨1, [1]⟩ ⟨0, [0, 1]⟩ (.baseCase true) ⟨0, 0⟩) ⟨0, 0⟩, 0⟩ :
      BreadthFirstManager Nat 2) 5).map Prod.fst =
    (nextOuts (⟨.zipped ⟨1, [1]⟩ ⟨0, [0, 1]⟩
        (.zipped ⟨1, [1]⟩ ⟨0, [0, 1]⟩ (.baseCase true) ⟨0, 0⟩) ⟨0, 0⟩, 0⟩ :
      BreadthFirstManager Nat 2) 5).map Prod.fst :=
  ⟨by decide, rfl, C8_guard_optimization [[0, 1], [0, 1]] _ (by decide) rfl 5⟩

/-- **C1 (amended)** — completeness with the `usize` proviso: for N ≥ 1
finite non-empty sequences whose maximum achievable index sum fits in a
`usize` threshold (`maxSum ls < 2^64`), the driver yields exactly
`L1 * L2 * … * LN` combinations and then end-of-data, and no combination
(identified by its index tuple) is produced more than once.  (Without the
proviso the driver stops permanently at the `checked_add` overflow — see the
counterexample.) -/
theorem C1_completeness :
    ∀ (ls : List (List α)) (m₀ : BreadthFirstManager α ls.length),
      1 ≤ ls.length → (∀ L ∈ ls, L ≠ []) → maxSum ls < USIZE →
      breadth_first_zip ls = .ok m₀ →
      (emitted ls).length = totalProd ls ∧
      ((emitted ls).map (fun c => c.map Prod.fst)).Nodup ∧
      ∃ m', nextOuts m₀ (totalProd ls + 1) =
        some ((emitted ls).map (fun c => some (c.map Prod.snd)) ++ [none], m') := by
  intro ls m₀ hN hne hcap hm
  have hlen := length_emitted hne hcap
  refine ⟨hlen, nodup_emitted_ixs ls, ?_⟩
  obtain ⟨m', hm'⟩ := driver_stream hm (totalProd ls + 1)
  refine ⟨m', ?_⟩
  rw [hm']
  congr 2
  rw [← hlen]
  exact range_map_get _ (emitted ls)

theorem C1_completeness_witness :
    (1 ≤ ([[(0 : Nat), 1], [0, 1]] : List (List Nat)).length) ∧
    (∀ L ∈ [[(0 : Nat), 1], [0, 1]], L ≠ []) ∧
    maxSum [[(0 : Nat), 1], [0, 1]] < USIZE ∧
    breadth_first_zip [[0, 1], [0, 1]] =
      .ok ⟨.zipped ⟨1, [1]⟩ ⟨0, [0, 1]⟩
        (.zipped ⟨1, [1]⟩ ⟨0, [0, 1]⟩ (.baseCase true) ⟨0, 0⟩) ⟨0, 0⟩, 0⟩ ∧
    ((emitted [[(0 : Nat), 1], [0, 1]]).length = totalProd [[(0 : Nat), 1], [0, 1]] ∧
      ((emitted [[(0 : Nat), 1], [0, 1]]).map (fun c => c.map Prod.fst)).Nodup ∧
      ∃ m', nextOuts (⟨.zipped ⟨1, [1]⟩ ⟨0, [0, 1]⟩
          (.zipped ⟨1, [1]⟩ ⟨0, [0, 1]⟩ (.baseCase true) ⟨0, 0⟩) ⟨0, 0⟩, 0⟩ :
        BreadthFirstManager Nat 2) (totalProd [[(0 : Nat), 1], [0, 1]] + 1) =
        some ((emitted [[(0 : Nat), 1], [0, 1]]).map
          (fun c => some (c.map Prod.snd)) ++ [none], m')) :=
  ⟨by decide, by decide, by decide, rfl,
    C1_completeness [[0, 1], [0, 1]] _ (by decide) (by decide) (by decide) rfl⟩

/-- Restriction of the enumeration to a single sequence: exactly one
combination per index sum within range. -/
theorem sumCombosFrom_single : ∀ (m : Nat) (L : List α) (s i : Nat),
    L.length - i ≤ m →
    sumCombosFrom s L i [] = if i ≤ s then
      (match L.get? s with | some v => [[(s, v)]] | none => []) else [] := by
  intro m
  induction m with
  | zero =>
    intro L s i hm
    rw [sumCombosFrom_of_get_none (List.get?_eq_none.mpr (by omega)) _ _]
    by_cases hle : i ≤ s
    · rw [if_pos hle, show L.get? s = none from List.get?_eq_none.mpr (by omega)]
    · rw [if_neg hle]
  | succ m ihm =>
    intro L s i hm
    cases hg : L.get? i with
    | none =>
      have hlen : L.length ≤ i := List.get?_eq_none.mp hg
      rw [sumCombosFrom_of_get_none hg _ _]
      by_cases hle : i ≤ s
      · rw [if_pos hle, show L.get? s = none from List.get?_eq_none.mpr (by omega)]
      · rw [if_neg hle]
    | some v =>
      have hilt : i < L.length := (List.get?_eq_some.mp hg).choose
      by_cases hle : i ≤ s
      · rw [sumCombosFrom_of_get_some hg hle, if_pos hle]
        by_cases heq : i = s
        · subst heq
          rw [sumCombos_nil, if_pos (by omega)]
          rw [ihm L i (i + 1) (by omega), if_neg (by omega)]
          rw [hg]
          rfl
        · rw [sumCombos_nil, if_neg (by omega)]
          rw [ihm L s (i + 1) (by omega), if_pos (by omega)]
          rfl
      · rw [sumCombosFrom_of_gt (by omega) _ _, if_neg hle]

theorem sumCombos_single (L : List α) (s : Nat) :
    sumCombos s [L] =
      (match L.get? s with | some v => [[(s, v)]] | none => []) := by
  rw [sumCombos_cons, sumCombosFrom_single L.length L s 0 (by omega),
    if_pos (Nat.zero_le s)]

theorem flatMap_singleton_map {β γ : Type} (g : β → γ) :
    ∀ l : List β, (l.flatMap fun x => [g x]) = l.map g := by
  intro l
  induction l with
  | nil => rfl
  | cons x l ih => rw [List.flatMap_cons, ih]; rfl

/-- **C1 (counterexample)** — the claim as stated fails on a sequence longer
than `usize::MAX + 1` elements: the product of the lengths is `2^64 + 1`,
but the driver returns end-of-data after only `2^64` combinations, because
the threshold's `checked_add` overflows once `index_sum = usize::MAX`. -/
theorem C1_counterexample :
    driverOuts [List.replicate (USIZE + 1) (0 : Nat)] (USIZE + 1)
      = some ((List.range (USIZE + 1)).map
          (fun j => if j < USIZE then some [(0 : Nat)] else none)) ∧
    totalProd [List.replicate (USIZE + 1) (0 : Nat)] = USIZE + 1 ∧
    ((List.range (USIZE + 1)).map
      (fun j => if j < USIZE then some [(0 : Nat)] else none)).countP Option.isSome
      = USIZE ∧
    USIZE < USIZE + 1 := by
  have hmax : maxSum [List.replicate (USIZE + 1) (0 : Nat)] = USIZE := by
    simp [maxSum]
  have h1 : ∀ s : Nat, sumCombos s [List.replicate (USIZE + 1) (0 : Nat)] =
      if s < USIZE + 1 then [[(s, (0 : Nat))]] else [] := by
    intro s
    rw [sumCombos_single, List.get?_eq_getElem?, List.getElem?_replicate]
    by_cases h : s < USIZE + 1
    · rw [if_pos h, if_pos h]
    · rw [if_neg h, if_neg h]
  have h2 : emitted [List.replicate (USIZE + 1) (0 : Nat)]
      = (List.range USIZE).map (fun s => [(s, (0 : Nat))]) := by
    unfold emitted
    rw [show min (maxSum [List.replicate (USIZE + 1) (0 : Nat)]) (USIZE - 1) + 1
      = USIZE by rw [hmax]; simp [USIZE]]
    rw [List.flatMap_def]
    rw [List.map_congr_left (fun s hs => by
      rw [h1 s, if_pos (by have := List.mem_range.mp hs; omega)])]
    rw [← List.flatMap_def, flatMap_singleton_map]
  have h3 : ∀ j, (emitted [List.replicate (USIZE + 1) (0 : Nat)]).get? j =
      if j < USIZE then some [(j, (0 : Nat))] else none := by
    intro j
    rw [h2, List.get?_map]
    by_cases hj : j < USIZE
    · rw [List.get?_range hj, if_pos hj]
      rfl
    · rw [List.get?_eq_none.mpr (by simp [List.length_range]; omega), if_neg hj]
      rfl
  have hbf : breadth_first_zip [List.replicate (USIZE + 1) (0 : Nat)] = .ok
      ⟨.zipped ⟨1, List.replicate USIZE 0⟩ ⟨0, List.replicate (USIZE + 1) 0⟩
        (.baseCase true) ⟨0, 0⟩, 0⟩ := by
    rw [List.replicate_succ]
    rfl
  obtain ⟨m', hm'⟩ := driver_stream hbf (USIZE + 1)
  have hlist : (List.range (USIZE + 1)).map
        (fun j => ((emitted [List.replicate (USIZE + 1) (0 : Nat)]).get? j).map
          (List.map Prod.snd))
      = (List.range (USIZE + 1)).map
        (fun j => if j < USIZE then some [(0 : Nat)] else none) := by
    apply List.map_congr_left
    intro j _
    rw [h3 j]
    by_cases hj : j < USIZE
    · rw [if_pos hj, if_pos hj]
      rfl
    · rw [if_neg hj, if_neg hj]
      rfl
  refine ⟨?_, by simp [totalProd], ?_, by omega⟩
  · simp only [driverOuts, hbf, hm', Option.map_some', hlist]
  · rw [List.countP_map, List.range_succ, List.countP_append]
    rw [List.countP_eq_length.mpr (fun a ha => by
      simp [List.mem_range.mp ha])]
    rw [List.length_range]
    simp

theorem punflatten_ok : ∀ ls : List (List α), ∃ n, punflatten ls = .ok n := by
  intro ls
  induction ls with
  | nil => exact ⟨.baseCase true, rfl⟩
  | cons L ls ih =>
    obtain ⟨n, hn⟩ := ih
    exact ⟨.zipped ⟨L, [], 0⟩ n, by rw [punflatten, hn]; rfl⟩

/-- **C3 (amended)** — construction with an empty input sequence: the
replaying strategy (src/lib.rs) fails with the empty-sequence error and
produces no driver, but the caching strategy (src/pure.rs) never fails —
`Reiterator::new` unconditionally returns `Ok` — so for it construction
succeeds even when an input sequence is empty.  (The original claim asserted
the failure for both strategies; see the counterexample.) -/
theorem C3_construction (α : Type) :
    (∀ ls : List (List α), [] ∈ ls →
      breadth_first_zip ls = .error "Tried to breadth-first zip an empty iterator") ∧
    (∀ ls : List (List α), ∃ r, pure_breadth_first_zip ls = .ok r) := by
  constructor
  · intro ls h
    rw [breadth_first_zip, unflatten_error_of_mem h]
  · intro ls
    obtain ⟨n, hn⟩ := punflatten_ok ls
    exact ⟨(n, 0), by rw [pure_breadth_first_zip, hn]⟩

theorem C3_construction_witness :
    breadth_first_zip ([[], [0]] : List (List Nat))
      = .error "Tried to breadth-first zip an empty iterator" ∧
    ∃ r, pure_breadth_first_zip ([[], [0]] : List (List Nat)) = .ok r :=
  ⟨(C3_construction Nat).1 [[], [0]] (by simp),
   (C3_construction Nat).2 [[], [0]]⟩

/-- **C3 (counterexample)** — with the caching cursor strategy (src/pure.rs)
construction does NOT fail on an empty input sequence: `Reiterator::new`
never produces the error, so zipping the 1-tuple `([],)` succeeds and yields
a driver. -/
theorem C3_counterexample :
    ([] : List Nat) ∈ ([[]] : List (List Nat)) ∧
    pure_breadth_first_zip ([[]] : List (List Nat))
      = .ok (.zipped ⟨[], [], 0⟩ (.baseCase true), 0) ∧
    exceptOk (pure_breadth_first_zip ([[]] : List (List Nat))) = true :=
  ⟨by simp, rfl, rfl⟩

/-- What one `BreadthFirstManager::next` call does, split by the three
branches of the source: success at the current threshold, failure with a
successful `checked_add` (increment + rewind + single retry), or failure
with an overflowing `checked_add` (threshold unchanged, end-of-data). -/
theorem next_characterization {d : Nat} {m : BreadthFirstManager α d}
    {r : Option (List α)} {m' : BreadthFirstManager α d}
    (h : m.next = some (r, m')) :
    (∃ v t₁, advance m.tail m.index_sum = some (some v, t₁) ∧
      r = some v ∧ m' = ⟨t₁, m.index_sum⟩) ∨
    (∃ t₁, advance m.tail m.index_sum = some (none, t₁) ∧
      ((m.index_sum + 1 < USIZE ∧
        ∃ t₂ t₃, rewind t₁ = some t₂ ∧
          advance t₂ (m.index_sum + 1) = some (r, t₃) ∧
          m' = ⟨t₃, m.index_sum + 1⟩) ∨
       (¬ m.index_sum + 1 < USIZE ∧ r = none ∧ m' = ⟨t₁, m.index_sum⟩))) := by
  unfold BreadthFirstManager.next at h
  cases ha : advance m.tail m.index_sum with
  | none =>
    simp only [ha] at h
    exact absurd h (by simp)
  | some p =>
    obtain ⟨ro, t₁⟩ := p
    cases ro with
    | some v =>
      simp only [ha, Option.some.injEq, Prod.mk.injEq] at h
      exact Or.inl ⟨v, t₁, rfl, h.1.symm, h.2.symm⟩
    | none =>
      refine Or.inr ⟨t₁, rfl, ?_⟩
      simp only [ha] at h
      by_cases hov : m.index_sum + 1 < USIZE
      · have hca : checked_add1 m.index_sum = some (m.index_sum + 1) := by
          rw [checked_add1, if_pos hov]
        simp only [hca] at h
        cases hr : rewind t₁ with
        | none =>
          simp only [hr] at h
          exact absurd h (by simp)
        | some t₂ =>
          simp only [hr] at h
          cases ha2 : advance t₂ (m.index_sum + 1) with
          | none =>
            simp only [ha2] at h
            exact absurd h (by simp)
          | some q =>
            obtain ⟨ro', t₃⟩ := q
            simp only [ha2, Option.some.injEq, Prod.mk.injEq] at h
            exact Or.inl ⟨hov, t₂, t₃, rfl, by rw [ha2, h.1], h.2.symm⟩
      · have hca : checked_add1 m.index_sum = none := by
          rw [checked_add1, if_neg hov]
        simp only [hca, Option.some.injEq, Prod.mk.injEq] at h
        exact Or.inr ⟨hov, h.1.symm, h.2.symm⟩

/-- **C5 (amended)** — threshold dynamics: `index_sum` starts at 0 and never
decreases across `next()` calls, and each call takes exactly one of three
branches: (i) the node tree reports a combination at the current threshold,
which is returned with the threshold unchanged; (ii) the tree reports no
combination and `index_sum + 1` still fits in a `usize`, in which case the
threshold is increased by exactly 1, the whole tree is rewound, and the
query is retried exactly once at the new threshold; (iii) the tree reports
no combination but incrementing would overflow, in which case the threshold
is left unchanged and the call returns end-of-data.  (The original claim's
"increased by exactly 1 exactly when the tree reports no combination" fails
in branch (iii); see the counterexample.) -/
theorem C5_threshold :
    (∀ (ls : List (List α)) (m₀ : BreadthFirstManager α ls.length),
      breadth_first_zip ls = .ok m₀ → m₀.index_sum = 0) ∧
    (∀ (d : Nat) (m : BreadthFirstManager α d) (r : Option (List α))
        (m' : BreadthFirstManager α d),
      m.next = some (r, m') → m.index_sum ≤ m'.index_sum) ∧
    (∀ (d : Nat) (m : BreadthFirstManager α d) (r : Option (List α))
        (m' : BreadthFirstManager α d),
      m.next = some (r, m') →
        (∃ v t₁, advance m.tail m.index_sum = some (some v, t₁) ∧
          r = some v ∧ m' = ⟨t₁, m.index_sum⟩) ∨
        (∃ t₁, advance m.tail m.index_sum = some (none, t₁) ∧
          ((m.index_sum + 1 < USIZE ∧
            ∃ t₂ t₃, rewind t₁ = some t₂ ∧
              advance t₂ (m.index_sum + 1) = some (r, t₃) ∧
              m' = ⟨t₃, m.index_sum + 1⟩) ∨
           (¬ m.index_sum + 1 < USIZE ∧ r = none ∧ m' = ⟨t₁, m.index_sum⟩)))) := by
  refine ⟨?_, ?_, fun d m r m' h => next_characterization h⟩
  · intro ls m₀ h
    obtain ⟨n, _, hm₀⟩ := breadth_first_zip_ok h
    rw [hm₀]
  · intro d m r m' h
    rcases next_characterization h with ⟨v, t₁, _, _, hm'⟩ |
      ⟨t₁, _, ⟨_, t₂, t₃, _, _, hm'⟩ | ⟨_, _, hm'⟩⟩
    · rw [hm']
    · rw [hm']; exact Nat.le_succ _
    · rw [hm']

theorem C5_threshold_witness :
    breadth_first_zip ([] : List (List Nat)) = .ok ⟨.baseCase true, 0⟩ ∧
    (⟨Node.baseCase true, 0⟩ : BreadthFirstManager Nat 0).index_sum = 0 ∧
    (⟨Node.baseCase true, 0⟩ : BreadthFirstManager Nat 0).index_sum
      ≤ (⟨Node.baseCase false, 0⟩ : BreadthFirstManager Nat 0).index_sum := by
  have hnext : BreadthFirstManager.next
      (⟨.baseCase true, 0⟩ : BreadthFirstManager Nat 0)
      = some (some [], ⟨.baseCase false, 0⟩) := by
    have a : advance (Node.baseCase true : Node Nat 0) 0
        = some (some [], .baseCase false) := by
      rw [advance.eq_def]; simp
    simp only [BreadthFirstManager.next, a]
  exact ⟨rfl, (C5_threshold (α := Nat)).1 [] ⟨.baseCase true, 0⟩ rfl,
    (C5_threshold (α := Nat)).2.1 0 ⟨.baseCase true, 0⟩ (some []) ⟨.baseCase false, 0⟩ hnext⟩

theorem unit_step {i : Nat} (h1 : 1 ≤ i) (h2 : i + 1 < USIZE) :
    BreadthFirstManager.next (⟨.baseCase true, i⟩ : BreadthFirstManager α 0)
      = some (none, ⟨.baseCase true, i + 1⟩) := by
  have a : advance (Node.baseCase true : Node α 0) i
      = some (none, .baseCase true) := by
    rw [advance.eq_def]; simp [show i ≠ 0 from by omega]
  have a2 : advance (Node.baseCase true : Node α 0) (i + 1)
      = some (none, .baseCase true) := by
    rw [advance.eq_def]; simp
  have hca : checked_add1 i = some (i + 1) := by rw [checked_add1, if_pos h2]
  have hrw : rewind (Node.baseCase true : Node α 0) = some (.baseCase true) := by
    simp [rewind]
  simp only [BreadthFirstManager.next, a, hca, hrw, a2]

theorem unit_run : ∀ (k i : Nat), 1 ≤ i → i + k < USIZE →
    nextOuts (⟨.baseCase true, i⟩ : BreadthFirstManager α 0) k
      = some (List.replicate k none, ⟨.baseCase true, i + k⟩) := by
  intro k
  induction k with
  | zero => intro i _ _; simp [nextOuts]
  | succ k ih =>
    intro i h1 h2
    have hstep := unit_step (α := α) h1 (by omega)
    have hrec := ih (i + 1) (by omega) (by omega)
    simp only [nextOuts, hstep, hrec, List.replicate_succ]
    rw [show i + 1 + k = i + (k + 1) by omega]

/-- **C5 (counterexample)** — the "increased by exactly 1 exactly when the
node tree reports no combination" part of the claim fails at threshold
overflow: in the reachable state with `index_sum = usize::MAX` (reached by
the arity-0 driver after `2^64` calls), the node tree reports no combination
at the current threshold, yet `next()` leaves `index_sum` unchanged, because
`checked_add` fails. -/
theorem C5_counterexample :
    breadth_first_zip ([] : List (List Nat)) = .ok ⟨.baseCase true, 0⟩ ∧
    nextOuts (⟨.baseCase true, 0⟩ : BreadthFirstManager Nat 0) USIZE
      = some (some [] :: List.replicate (USIZE - 1) none,
          ⟨.baseCase true, USIZE - 1⟩) ∧
    advance (Node.baseCase true : Node Nat 0) (USIZE - 1)
      = some (none, .baseCase true) ∧
    BreadthFirstManager.next
        (⟨.baseCase true, USIZE - 1⟩ : BreadthFirstManager Nat 0)
      = some (none, ⟨.baseCase true, USIZE - 1⟩) ∧
    (⟨Node.baseCase true, USIZE - 1⟩ : BreadthFirstManager Nat 0).index_sum
      = USIZE - 1 := by
  have at0 : advance (Node.baseCase true : Node Nat 0) 0
      = some (some [], .baseCase false) := by
    rw [advance.eq_def]; simp
  have af0 : advance (Node.baseCase false : Node Nat 0) 0
      = some (none, .baseCase false) := by
    rw [advance.eq_def]; simp
  have at1 : advance (Node.baseCase true : Node Nat 0) 1
      = some (none, .baseCase true) := by
    rw [advance.eq_def]; simp
  have atm : advance (Node.baseCase true : Node Nat 0) (USIZE - 1)
      = some (none, .baseCase true) := by
    rw [advance.eq_def]; simp [show USIZE - 1 ≠ 0 from by norm_num [USIZE]]
  have hca0 : checked_add1 0 = some 1 := by
    rw [checked_add1, if_pos (by norm_num [USIZE])]
  have hcam : checked_add1 (USIZE - 1) = none := by
    rw [checked_add1, if_neg (by norm_num [USIZE])]
  have hrwf : rewind (Node.baseCase false : Node Nat 0) = some (.baseCase true) := by
    simp [rewind]
  have n1 : BreadthFirstManager.next
      (⟨.baseCase true, 0⟩ : BreadthFirstManager Nat 0)
      = some (some [], ⟨.baseCase false, 0⟩) := by
    simp only [BreadthFirstManager.next, at0]
  have n2 : BreadthFirstManager.next
      (⟨.baseCase false, 0⟩ : BreadthFirstManager Nat 0)
      = some (none, ⟨.baseCase true, 1⟩) := by
    simp only [BreadthFirstManager.next, af0, hca0, hrwf, at1]
  have nm : BreadthFirstManager.next
      (⟨.baseCase true, USIZE - 1⟩ : BreadthFirstManager Nat 0)
      = some (none, ⟨.baseCase true, USIZE - 1⟩) := by
    simp only [BreadthFirstManager.next, atm, hcam]
  have hrun := unit_run (α := Nat) (USIZE - 2) 1 (le_refl 1) (by norm_num [USIZE])
  rw [show (1 : Nat) + (USIZE - 2) = USIZE - 1 from by norm_num [USIZE]] at hrun
  have hstep2 : ∀ (K : Nat) (outs : List (Option (List Nat)))
      (mf : BreadthFirstManager Nat 0),
      nextOuts (⟨.baseCase true, 1⟩ : BreadthFirstManager Nat 0) K = some (outs, mf) →
      nextOuts (⟨.baseCase true, 0⟩ : BreadthFirstManager Nat 0) (K + 1 + 1)
        = some (some [] :: none :: outs, mf) := by
    intro K outs mf hK
    simp only [nextOuts, n1, n2, hK]
  have h2 := hstep2 (USIZE - 2) _ _ hrun
  have hk : (USIZE - 2) + 1 + 1 = USIZE := by norm_num [USIZE]
  have hr : (none : Option (List Nat)) :: List.replicate (USIZE - 2) none
      = List.replicate (USIZE - 1) none := by
    rw [← List.replicate_succ, show (USIZE - 2) + 1 = USIZE - 1 from by norm_num [USIZE]]
  rw [hk, hr] at h2
  exact ⟨rfl, h2, atm, nm, rfl⟩

/-- **C7 (amended)** — cursor and driver validity.  (1) Reading a caching
cursor (src/pure.rs) whose cache is the consumed prefix of the underlying
sequence `L` and whose read position has not been advanced past the cache
end while unread elements remain (`min r.index L.length ≤ r.cache.length`)
returns exactly the element of `L` at position `r.index`; in particular it
returns none exactly when `L` has at most `r.index` elements.  (2) Every
component value emitted by the driver is a value actually present in its
corresponding input sequence at the claimed position.  (The original claim's
unconditional per-cursor contract fails for a reachable desynchronised
cursor; see the counterexample.) -/
theorem C7_current_valid :
    (∀ (L : List α) (r : Reiterator α), r.cache ++ r.iter = L →
      min r.index L.length ≤ r.cache.length →
      (r.current).map Prod.fst = L.get? r.index) ∧
    (∀ (ls : List (List α)) (m₀ : BreadthFirstManager α ls.length),
      breadth_first_zip ls = .ok m₀ →
      ∀ (k : Nat) (outs : List (Option (List α))) (m' : BreadthFirstManager α ls.length),
        nextOuts m₀ k = some (outs, m') →
        ∀ (j : Nat) (v : List α), outs.get? j = some (some v) →
          ∃ c ∈ emitted ls, v = c.map Prod.snd ∧
            List.Forall₂ (fun (e : Nat × α) (L : List α) =>
              L.get? e.1 = some e.2) c ls) := by
  constructor
  · intro L r hL hsync
    cases hc : r.cache.get? r.index with
    | some v =>
      have hlt : r.index < r.cache.length := (List.get?_eq_some.mp hc).choose
      simp only [Reiterator.current, hc]
      rw [← hL, List.get?_append hlt, hc]
      rfl
    | none =>
      have hge : r.cache.length ≤ r.index := List.get?_eq_none.mp hc
      cases hi : r.iter with
      | nil =>
        simp only [Reiterator.current, hc, hi]
        have hlen : L.length ≤ r.index := by
          rw [← hL, hi]
          simpa using hge
        rw [List.get?_eq_none.mpr hlen]
        rfl
      | cons v rest =>
        simp only [Reiterator.current, hc, hi]
        have hlen : L.length = r.cache.length + (rest.length + 1) := by
          rw [← hL, hi]
          simp
        have hidx : r.index = r.cache.length := by
          rcases Nat.le_total r.index L.length with hle | hle
          · rw [min_eq_left hle] at hsync
            omega
          · rw [min_eq_right hle] at hsync
            omega
        rw [hidx, ← hL, List.get?_append_right (le_refl _), hi]
        simp
  · intro ls m₀ hm k outs m' houts j v hj
    obtain ⟨m'', hm''⟩ := driver_stream hm k
    rw [houts] at hm''
    simp only [Option.some.injEq, Prod.mk.injEq] at hm''
    obtain ⟨houts_eq, _⟩ := hm''
    subst houts_eq
    have hjk : j < k := by
      by_contra hjk
      rw [List.get?_eq_none.mpr (by simp [List.length_map, List.length_range]; omega)] at hj
      exact absurd hj (by simp)
    rw [List.get?_map, List.get?_range hjk] at hj
    simp only [Option.map_some', Option.some.injEq] at hj
    obtain ⟨c, hcget, hcv⟩ := Option.map_eq_some'.mp hj
    exact ⟨c, List.get?_mem hcget, hcv.symm, mem_emitted_forall2 (List.get?_mem hcget)⟩

theorem C7_current_valid_witness :
    ((⟨[3, 4], [], 0⟩ : Reiterator Nat).current).map Prod.fst
      = [(3 : Nat), 4].get? 0 :=
  (C7_current_valid (α := Nat)).1 [3, 4] ⟨[3, 4], [], 0⟩ rfl (by decide)

/-- **C7 (counterexample)** — the per-cursor contract of the claim fails on a
reachable desynchronised cursor: starting from `Reiterator::new([5, 6])`, one
`next()` (which only increments the position, without materialising element 0
into the cache) moves the position to 1, yet `current` then returns element
`5` — the head of the unconsumed source — although the sequence has more
than 1 element and its element at position 1 is `6`. -/
theorem C7_counterexample :
    Reiterator.new [(5 : Nat), 6] = .ok ⟨[5, 6], [], 0⟩ ∧
    Reiterator.next (⟨[5, 6], [], 0⟩ : Reiterator Nat)
      = some ((), ⟨[5, 6], [], 1⟩) ∧
    Reiterator.current (⟨[5, 6], [], 1⟩ : Reiterator Nat)
      = some (5, ⟨[6], [5], 1⟩) ∧
    [(5 : Nat), 6].get? 1 = some 6 ∧ (5 : Nat) ≠ 6 := by
  refine ⟨rfl, ?_, rfl, rfl, by decide⟩
  rw [Reiterator.next, show checked_add1 0 = some 1 from by
    rw [checked_add1, if_pos (by norm_num [USIZE])]]

end BFZ
